import Mathlib

/-!
Shallow embedding of the bazuka consensus / state engine
(`src/blockchain/mod.rs`, `src/db/mod.rs`, `src/db/ram.rs`,
`src/core/transaction.rs`) in Lean 4, together with theorems settling the
claims about it.

Modelling conventions:

* Machine integers (`u32`, `u64`, `u128`, `usize`) are modelled as `Nat`.
  All balance / supply arithmetic in the source is guarded by explicit
  comparisons against underflow, and the one place where an unsigned
  subtraction is *not* guarded (`rollback_block` computing `height - 1`)
  is modelled explicitly as a panic (see `Res.panic` below).
* The untyped byte blobs stored in the KV store are modelled by the typed
  inductive `Value`: the source serializes typed objects with a canonical
  injective codec (`bincode`) and decodes them with `try_into`, a decode
  of the wrong type failing with `KvStoreError`.  A `Value` constructor
  per storable type models exactly this, with a constructor mismatch
  playing the role of a decode failure.
* The KV keys of the source are formatted strings
  (`"account_{addr}"`, `"block_{:010}"`, ...) which are pairwise distinct
  across the different formatting schemes and injective in their
  parameters; they are modelled by the inductive `StringKey`.
* `WriteOp` is modelled as `StringKey × Option Value`:
  `WriteOp::Put(k,v) = (k, some v)` and `WriteOp::Remove(k) = (k, none)`.
* The `HashMap` based `RamKvStore` and the overlay map of
  `RamMirrorKvStore` are modelled as association lists with
  replace-or-append insertion, so every key occurs at most once, matching
  map semantics (a `HashMap` imposes no iteration order, so the list
  order is a deterministic refinement of it).
* Opaque cryptographic primitives (SHA3 header hashes, EdDSA signature
  verification, merkle trees, Groth16 verification, the PoW hash) and
  repository code that is not part of the given sources
  (`utils::median`, `utils::calc_pow_difficulty`, `core/header.rs`,
  the compile-time configuration constants of `config/blockchain.rs`)
  are parameters of the development, collected in the structure `Env`;
  each such field is documented at its declaration.
-/

namespace Bazuka

/-- `Money` (`src/core/mod.rs`): `pub type Money = u64`, modelled as
`Nat`; the alias is written out as `Nat` in the structures below. -/
abbrev Money : Type := Nat

/-- `src/core/address.rs` (declarations only; the file itself is not among
the given sources).  Modelled from the spec: "Address: tagged variant —
Treasury (singleton), or PublicKey(pk)".  The public key payload is kept
opaque as a `Nat`. -/
inductive Address where
  | treasury : Address
  | publicKey : Nat → Address
deriving DecidableEq, Repr

/-- `src/core/address.rs`.  Modelled from the spec: "Account:
{ balance: u64, nonce: u64 }". -/
structure Account where
  balance : Nat
  nonce : Nat
deriving DecidableEq, Repr

/-- `src/core/address.rs`.  Modelled from the spec: "sig is Unsigned or
Signed(bytes)".  The signature payload is kept opaque as a `Nat`. -/
inductive Signature where
  | unsigned : Signature
  | signed : Nat → Signature
deriving DecidableEq, Repr

/-- `ZkScalar` (`src/zk/mod.rs`): an opaque field element. -/
abbrev ZkScalar : Type := Nat

/-- `ZkStateModel` (`src/zk/mod.rs`). -/
structure ZkStateModel where
  leafSize : Nat
  treeDepth : Nat
deriving DecidableEq, Repr

/-- `ZkCompressedState` (`src/zk/mod.rs`): `{ state_hash, state_size }`. -/
structure ZkCompressedState where
  stateHash : ZkScalar
  stateSize : Nat
deriving DecidableEq, Repr

/-- `ZkCompressedState::size` (`src/zk/mod.rs`). -/
def ZkCompressedState.size (s : ZkCompressedState) : Nat := s.stateSize

/-- `ZkVerifierKey` (`src/zk/mod.rs`): `Groth16(vk) | Plonk(u8) | Dummy`
(the `Dummy` variant is `cfg(test)`; it is included because the engine's
own test suite exercises it).  The Groth16 key is opaque. -/
inductive ZkVerifierKey where
  | groth16 : Nat → ZkVerifierKey
  | plonk : Nat → ZkVerifierKey
  | dummy : ZkVerifierKey
deriving DecidableEq, Repr

/-- `ZkProof` (`src/zk/mod.rs`): `Groth16(proof) | Plonk(u8) | Dummy(bool)`. -/
inductive ZkProof where
  | groth16 : Nat → ZkProof
  | plonk : Nat → ZkProof
  | dummy : Bool → ZkProof
deriving DecidableEq, Repr

/-- `ZkContract` (`src/zk/mod.rs`). -/
structure ZkContract where
  initialState : ZkCompressedState
  stateModel : ZkStateModel
  depositWithdraw : ZkVerifierKey
  update : List ZkVerifierKey
deriving DecidableEq, Repr

/-- `ZkState` (`src/zk/mod.rs`): the full contract state, opaque to the
engine except through `compress` / `rollback` (which are `Env` fields). -/
abbrev ZkState : Type := Nat

/-- `ContractId` (`src/core/transaction.rs`): a hash of the creating
transaction, opaque. -/
abbrev ContractId : Type := Nat

/-- `ContractAccount` as constructed in `src/blockchain/mod.rs`:
`{ height, compressed_state, balance }`. -/
structure ContractAccount where
  height : Nat
  compressedState : ZkCompressedState
  balance : Nat
deriving DecidableEq, Repr

/-- `ProofOfWork` (`src/core/header.rs`, declarations visible through
`src/blockchain/mod.rs` and `src/config/genesis.rs`):
`{ timestamp: u32, target: u32, nonce }`. -/
structure ProofOfWork where
  timestamp : Nat
  target : Nat
  nonce : Nat
deriving DecidableEq, Repr

/-- `Header` (`src/core/header.rs`; fields per the spec and their uses in
`src/blockchain/mod.rs`): `{ parent_hash, number, block_root,
proof_of_work }`.  Hash outputs are opaque `Nat`s. -/
structure Header where
  parentHash : Nat
  number : Nat
  blockRoot : Nat
  proofOfWork : ProofOfWork
deriving DecidableEq, Repr

/-- `TransactionData` with the variants and fields used by
`src/blockchain/mod.rs` (`RegularSend`, `CreateContract { contract }`,
`DepositWithdraw { contract_id, deposit_withdraws, next_state, proof }`,
`Update { contract_id, function_id, next_state, proof }`).
The `deposit_withdraws` payload is ignored by `apply_tx` (bound as `_`)
and kept opaque. -/
inductive TransactionData where
  | regularSend : Address → Nat → TransactionData
  | createContract : ZkContract → TransactionData
  | depositWithdraw : ContractId → Nat → ZkCompressedState → ZkProof → TransactionData
  | update : ContractId → Nat → ZkCompressedState → ZkProof → TransactionData
deriving DecidableEq, Repr

/-- `Transaction` (`src/core/transaction.rs`):
`{ src, nonce, data, fee, sig }`. -/
structure Transaction where
  src : Address
  nonce : Nat
  data : TransactionData
  fee : Nat
  sig : Signature
deriving DecidableEq, Repr

/-- `Block` (`src/core/blocks.rs`): header plus ordered body. -/
structure Block where
  header : Header
  body : List Transaction
deriving DecidableEq, Repr

/-- The KV keys (`src/db/mod.rs` `StringKey`).  The source formats them as
strings (`"height"`, `"block_{:010}"`, `"account_{addr}"`, ...); the
formatting schemes have pairwise distinct literal prefixes and are
injective in their parameters, so the key space is modelled by this
inductive. -/
inductive StringKey where
  | height : StringKey
  | outdated : StringKey
  | blockKey : Nat → StringKey
  | headerKey : Nat → StringKey
  | merkleKey : Nat → StringKey
  | powerKey : Nat → StringKey
  | rollbackKey : Nat → StringKey
  | contractUpdatesKey : Nat → StringKey
  | accountKey : Address → StringKey
  | contractKey : ContractId → StringKey
  | contractAccountKey : ContractId → StringKey
  | contractStateKey : ContractId → StringKey
  | contractCompressedStateKey : ContractId → Nat → StringKey
deriving DecidableEq, Repr

/-- `ZkCompressedStateChange` (`src/blockchain/mod.rs`). -/
structure ZkCompressedStateChange where
  prevState : ZkCompressedState
  state : ZkCompressedState
deriving DecidableEq, Repr

/-- The typed contents of a stored blob (`src/db/mod.rs` `Blob`): one
constructor per type in the `gen_try_into!` / `gen_from!` lists, plus the
`HashMap<ContractId, ZkCompressedStateChange>` map of
`contract_updates_*` entries.  A rollback log (`Vec<WriteOp>`) is stored
as a list of `StringKey × Option Value` pairs, `Put k v = (k, some v)`
and `Remove k = (k, none)`. -/
inductive Value where
  | vnat : Nat → Value
  | vaccount : Account → Value
  | vblock : Block → Value
  | vheader : Header → Value
  | vops : List (StringKey × Option Value) → Value
  | vmerkle : Nat → Value
  | vcontract : ZkContract → Value
  | vcontractAccount : ContractAccount → Value
  | vcompressed : ZkCompressedState → Value
  | vstateMap : List (ContractId × ZkCompressedState) → Value
  | vupdatesMap : List (ContractId × ZkCompressedStateChange) → Value
  | vzkState : ZkState → Value

/-- `WriteOp` (`src/db/mod.rs`): `Put(k, v) = (k, some v)`,
`Remove(k) = (k, none)`. -/
abbrev WriteOp : Type := StringKey × Option Value

/-- The `RamKvStore` contents (`src/db/ram.rs`): a `HashMap<String, Blob>`
modelled as an association list in which every key occurs at most once
(insertions replace). -/
abbrev Store : Type := List (StringKey × Value)

/-- Association-list lookup (`HashMap::get`). -/
def alget {κ β : Type} [DecidableEq κ] (l : List (κ × β)) (k : κ) : Option β :=
  (l.find? (fun p => p.1 = k)).map (·.2)

/-- Association-list removal (`HashMap::remove`). -/
def alremove {κ β : Type} [DecidableEq κ] (l : List (κ × β)) (k : κ) :
    List (κ × β) :=
  l.filter (fun p => ¬(p.1 = k))

/-- Association-list insertion (`HashMap::insert`): replace any existing
binding of `k`. -/
def alinsert {κ β : Type} [DecidableEq κ] (l : List (κ × β)) (k : κ) (v : β) :
    List (κ × β) :=
  alremove l k ++ [(k, v)]

/-- `RamKvStore::get` (`src/db/ram.rs`). -/
def ramGet (s : Store) (k : StringKey) : Option Value := alget s k

/-- One step of `RamKvStore::update` (`src/db/ram.rs`): apply a single
`WriteOp`. -/
def applyOp (s : Store) (op : WriteOp) : Store :=
  match op.2 with
  | some v => alinsert s op.1 v
  | none => alremove s op.1

/-- `RamKvStore::update` (`src/db/ram.rs`): apply the write ops in order. -/
def ramUpdate (s : Store) (ops : List WriteOp) : Store :=
  ops.foldl applyOp s

/-- `KvStore::rollback_of` (`src/db/mod.rs`): for each target key, read
its current value; emit `Put(k, old)` if present else `Remove(k)`. -/
def rollback_of (s : Store) (ops : List WriteOp) : List WriteOp :=
  ops.map (fun op => (op.1, ramGet s op.1))

/-- The last write op in `l` touching key `k`, if any, as the value it
leaves at `k` (`some v` for a `Put`, `none` for a `Remove`). -/
def lastTouch (l : List WriteOp) (k : StringKey) : Option (Option Value) :=
  match l with
  | [] => none
  | op :: rest => (lastTouch rest k).orElse
      (fun _ => if op.1 = k then some op.2 else none)

theorem alget_nil {κ β : Type} [DecidableEq κ] (k' : κ) :
    alget ([] : List (κ × β)) k' = none := rfl

theorem alget_cons {κ β : Type} [DecidableEq κ] (p : κ × β) (l : List (κ × β))
    (k' : κ) :
    alget (p :: l) k' = if p.1 = k' then some p.2 else alget l k' := by
  by_cases h : p.1 = k' <;> simp [alget, List.find?, h]

theorem alget_append {κ β : Type} [DecidableEq κ] (l₁ l₂ : List (κ × β)) (k' : κ) :
    alget (l₁ ++ l₂) k' =
      match alget l₁ k' with
      | some v => some v
      | none => alget l₂ k' := by
  induction l₁ with
  | nil => rfl
  | cons p l ih =>
    rw [List.cons_append, alget_cons, alget_cons]
    by_cases h : p.1 = k' <;> simp [h, ih]

theorem alremove_cons {κ β : Type} [DecidableEq κ] (p : κ × β) (l : List (κ × β))
    (k : κ) :
    alremove (p :: l) k = if p.1 = k then alremove l k else p :: alremove l k := by
  by_cases h : p.1 = k <;> simp [alremove, List.filter, h]

theorem alget_remove {κ β : Type} [DecidableEq κ] (l : List (κ × β)) (k k' : κ) :
    alget (alremove l k) k' = if k' = k then none else alget l k' := by
  induction l with
  | nil => show (none : Option β) = if k' = k then none else none; rw [ite_self]
  | cons p l ih =>
    rw [alremove_cons]
    by_cases hpk : p.1 = k
    · rw [if_pos hpk, ih, alget_cons]
      by_cases hk : k' = k
      · simp [hk]
      · have hpk' : ¬p.1 = k' := fun h => hk ((h.symm).trans hpk)
        rw [if_neg hk, if_neg hk, if_neg hpk']
    · rw [if_neg hpk, alget_cons, alget_cons]
      by_cases hpk' : p.1 = k'
      · have hk : ¬k' = k := fun h => hpk (hpk'.trans h)
        rw [if_pos hpk', if_neg hk, if_pos hpk']
      · rw [if_neg hpk', if_neg hpk', ih]

theorem alget_insert {κ β : Type} [DecidableEq κ] (l : List (κ × β)) (k k' : κ)
    (v : β) :
    alget (alinsert l k v) k' = if k' = k then some v else alget l k' := by
  unfold alinsert
  rw [alget_append, alget_remove]
  by_cases hk : k' = k
  · subst hk
    simp [alget_cons]
  · rw [if_neg hk, if_neg hk]
    cases h : alget l k' with
    | none =>
      have hk2 : ¬k = k' := fun h2 => hk h2.symm
      simp [alget_cons, alget_nil, hk2]
    | some v₀ => rfl

theorem ramGet_applyOp (s : Store) (op : WriteOp) (k : StringKey) :
    ramGet (applyOp s op) k = if op.1 = k then op.2 else ramGet s k := by
  rcases op with ⟨k₀, v?⟩
  rcases v? with _ | v
  · simp only [applyOp, ramGet]
    rw [alget_remove]
    by_cases h : k = k₀ <;> simp [h, eq_comm]
  · simp only [applyOp, ramGet]
    rw [alget_insert]
    by_cases h : k = k₀ <;> simp [h, eq_comm]

/-- The cumulative effect of `RamKvStore::update` at a single key is the
last write op touching that key. -/
theorem ramGet_ramUpdate (l : List WriteOp) (s : Store) (k : StringKey) :
    ramGet (ramUpdate s l) k = (lastTouch l k).getD (ramGet s k) := by
  induction l generalizing s with
  | nil => simp [ramUpdate, lastTouch]
  | cons op rest ih =>
    show ramGet (ramUpdate (applyOp s op) rest) k = _
    rw [ih]
    rcases h : lastTouch rest k with _ | r
    · simp only [lastTouch, h, Option.orElse]
      rw [ramGet_applyOp]
      by_cases hk : op.1 = k <;> simp [hk]
    · simp [lastTouch, h, Option.orElse]

theorem lastTouch_rollback_of (s : Store) (ops : List WriteOp) (k : StringKey) :
    lastTouch (rollback_of s ops) k = (lastTouch ops k).map (fun _ => ramGet s k) := by
  induction ops with
  | nil => simp [rollback_of, lastTouch]
  | cons op rest ih =>
    show lastTouch ((op.1, ramGet s op.1) :: rollback_of s rest) k = _
    rcases h : lastTouch rest k with _ | r
    · simp only [lastTouch, ih, h, Option.map_none, Option.orElse]
      by_cases hk : op.1 = k
      · subst hk; simp
      · simp [hk]
    · simp [lastTouch, ih, h, Option.orElse]

/-- `BlockchainError` (`src/blockchain/mod.rs`).  The `KvStoreError`
payload is dropped (the claims never depend on it); note that this
revision of the enum has no `NoBlocksToRollback` variant. -/
inductive BlockchainError where
  | kvStoreError : BlockchainError
  | signatureError : BlockchainError
  | balanceInsufficient : BlockchainError
  | inconsistency : BlockchainError
  | blockNotFound : BlockchainError
  | extendFromGenesis : BlockchainError
  | extendFromFuture : BlockchainError
  | invalidBlockNumber : BlockchainError
  | invalidParentHash : BlockchainError
  | invalidMerkleRoot : BlockchainError
  | invalidTransactionNonce : BlockchainError
  | invalidTimestamp : BlockchainError
  | difficultyTargetUnmet : BlockchainError
  | difficultyTargetWrong : BlockchainError
  | minerRewardNotFound : BlockchainError
  | illegalTreasuryAccess : BlockchainError
  | invalidMinerReward : BlockchainError
  | contractNotFound : BlockchainError
  | contractFunctionNotFound : BlockchainError
  | incorrectZkProof : BlockchainError
  | fullStateNotFound : BlockchainError
  | fullStateNotValid : BlockchainError
  | statesOutdated : BlockchainError
  | statesUnavailable : BlockchainError
  | blockTooBig : BlockchainError
  | compressedStateNotFound : BlockchainError
  | deltasInvalid : BlockchainError
  | zkError : BlockchainError
deriving DecidableEq, Repr

/-- Outcome of running a fallible piece of the engine: `ok` models
`Ok(..)`, `error` models `Err(..)`, and `panic` models a Rust panic
(reached by the unguarded `height - 1` underflow of `rollback_block` and
the `unimplemented!()` arm of `zk::check_proof`). -/
inductive Res (α : Type) where
  | panic : Res α
  | error : BlockchainError → Res α
  | ok : α → Res α
deriving DecidableEq, Repr

instance : Monad Res where
  pure := Res.ok
  bind := fun r f =>
    match r with
    | .panic => .panic
    | .error e => .error e
    | .ok a => f a

instance : MonadExcept BlockchainError Res where
  throw := Res.error
  tryCatch := fun r h =>
    match r with
    | .error e => h e
    | x => x

theorem Res.bind_ok {α β : Type} (a : α) (f : α → Res β) :
    (Res.ok a >>= f) = f a := rfl

theorem Res.bind_error {α β : Type} (e : BlockchainError) (f : α → Res β) :
    (Res.error e >>= f) = Res.error e := rfl

theorem Res.bind_panic {α β : Type} (f : α → Res β) :
    (Res.panic >>= f) = Res.panic := rfl

/-- `TxSideEffect` (`src/blockchain/mod.rs`). -/
inductive TxSideEffect where
  | stateChange : ContractId → ZkCompressedStateChange → TxSideEffect
  | nothing : TxSideEffect
deriving DecidableEq, Repr

/-- The opaque primitives and compile-time configuration constants the
engine is parameterized by.  The constants live in
`config/blockchain.rs`, which is not among the given sources; they are
modelled from the spec as parameters ("Configuration constants
(compile-time for production, overridable in tests)").  The function
fields model cryptographic primitives that the spec declares opaque and
repository code outside the given sources (`core/header.rs`,
`crypto/merkle.rs`, `utils.rs`, `zeekit`). -/
structure Env where
  /-- `config::TOTAL_SUPPLY`. -/
  totalSupply : Nat
  /-- `config::REWARD_RATIO` (a nonzero compile-time constant). -/
  rewardRatio : Nat
  /-- `config::MEDIAN_TIMESTAMP_COUNT`. -/
  medianTimestampCount : Nat
  /-- `config::DIFFICULTY_CALC_INTERVAL` (nonzero). -/
  difficultyCalcInterval : Nat
  /-- `config::MAX_DELTA_SIZE`. -/
  maxDeltaSize : Nat
  /-- `config::POW_BASE_KEY`, as an opaque byte string. -/
  powBaseKey : Nat
  /-- `config::POW_KEY_CHANGE_DELAY`. -/
  powKeyChangeDelay : Nat
  /-- `config::POW_KEY_CHANGE_INTERVAL` (nonzero). -/
  powKeyChangeInterval : Nat
  /-- `Header::hash` (`core/header.rs`): opaque SHA3 over the canonical
  header encoding. -/
  hashHeader : Header → Nat
  /-- `Header::power` (`core/header.rs`).  Modelled from the spec:
  "work(h) = 2^256 / (target+1) (integer approximation sufficient)";
  kept opaque. -/
  headerPower : Header → Nat
  /-- `Header::meets_target(pow_key)` (`core/header.rs`): opaque PoW
  verification of a header against a PoW key. -/
  meetsTarget : Header → Nat → Bool
  /-- `utils::calc_pow_difficulty` (`utils.rs`, not among the given
  sources): opaque difficulty retarget computation. -/
  calcPowDifficulty : ProofOfWork → ProofOfWork → Nat
  /-- `SignatureScheme::verify(pk, bytes, sig)` where `bytes` is the
  canonical (injective) encoding of the transaction with `sig` replaced
  by `Unsigned`; the transaction stands in for its encoding. -/
  sigVerify : Nat → Transaction → Nat → Bool
  /-- `Block::merkle_tree` (`crypto/merkle.rs`): opaque merkle tree of
  the body. -/
  merkleTreeOf : List Transaction → Nat
  /-- `MerkleTree::root`. -/
  merkleRootOf : Nat → Nat
  /-- `ContractId::new(tx)`: hash of the creating transaction's
  canonical encoding. -/
  contractIdOf : Transaction → ContractId
  /-- `zeekit::groth16_verify(vk, prev, aux, next, proof)`. -/
  groth16Verify : Nat → ZkScalar → ZkScalar → ZkScalar → Nat → Bool
  /-- `ZkState::compress(state_model)` (`src/zk/mod.rs`): opaque
  commitment function. -/
  zkCompress : ZkState → ZkStateModel → ZkCompressedState
  /-- `ZkState::rollback` (revision of `src/zk/mod.rs` used by
  `rollback_block`; not among the given sources): `none` models `Err`. -/
  zkRollbackFn : ZkState → Option ZkState
  /-- `Transaction::size()`: canonical serialized size. -/
  txSize : Transaction → Nat
  /-- `ZkCompressedState::height()` (revision of `src/zk/mod.rs` used by
  `rollback_block`; not among the given sources): opaque height
  accessor. -/
  zkCompressedHeight : ZkCompressedState → Nat

/-- `ZkState::default()`. -/
def zkStateDefault : ZkState := 0

/-- `zk::ZkCompressedState::default()`: zero scalar, zero size. -/
def zkCompressedDefault : ZkCompressedState := ⟨0, 0⟩

/-- `Transaction::verify_signature` (`src/core/transaction.rs`):
`Treasury`-sourced transactions always verify; a `PublicKey` source
requires a `Signed` signature verifying against the transaction with its
`sig` field replaced by `Unsigned`. -/
def verify_signature (env : Env) (tx : Transaction) : Bool :=
  match tx.src with
  | .treasury => true
  | .publicKey pk =>
    match tx.sig with
    | .unsigned => false
    | .signed s => env.sigVerify pk { tx with sig := .unsigned } s

/-- `zk::check_proof` (`src/zk/mod.rs`).  The `Plonk` arm is
`unimplemented!()` in the source and therefore panics. -/
def check_proof (env : Env) (vk : ZkVerifierKey) (prev aux next : ZkCompressedState)
    (proof : ZkProof) : Res Bool :=
  match vk with
  | .groth16 vkn =>
    .ok (match proof with
      | .groth16 p => env.groth16Verify vkn prev.stateHash aux.stateHash next.stateHash p
      | _ => false)
  | .dummy =>
    .ok (match proof with
      | .dummy r => r
      | _ => false)
  | .plonk _ => .panic

/-- The `KvStore` trait operations (`src/db/mod.rs`), restricted to the
implementations the engine runs on (`RamKvStore` and
`RamMirrorKvStore`), whose `get`/`update` never return `Err`. -/
structure KvIface (σ : Type) where
  kget : σ → StringKey → Option Value
  kupdate : σ → List WriteOp → σ

/-- The `RamKvStore` instance. -/
def ramKv : KvIface Store := ⟨ramGet, ramUpdate⟩

/-- The overwrite map of `RamMirrorKvStore` (`src/db/mod.rs`):
`HashMap<String, Option<Blob>>`. -/
abbrev Overlay : Type := List (StringKey × Option Value)

/-- `RamMirrorKvStore::get`: consult the overwrite map first, fall back
to the base store. -/
def mirrorGet (base : Store) (ov : Overlay) (k : StringKey) : Option Value :=
  match alget ov k with
  | some v? => v?
  | none => ramGet base k

/-- The `RamMirrorKvStore` instance over a fixed read-only base store:
`update` inserts `Some(v)` for a `Put` and `None` for a `Remove` into the
overwrite map and never touches the base. -/
def mirrorKv (base : Store) : KvIface Overlay :=
  ⟨mirrorGet base, fun ov ops => ops.foldl (fun o op => alinsert o op.1 op.2) ov⟩

/-- `RamMirrorKvStore::to_ops`: the pending writes, one per overwritten
key (`Some(b) => Put`, `None => Remove`); under the `WriteOp` encoding
this is the overwrite list itself. -/
def toOps (ov : Overlay) : List WriteOp := ov

/-- `get_height` (`src/blockchain/mod.rs`): the `height` key, defaulting
to 0. -/
def get_height {σ : Type} (I : KvIface σ) (s : σ) : Res Nat :=
  match I.kget s .height with
  | none => .ok 0
  | some (.vnat n) => .ok n
  | some _ => .error .kvStoreError

/-- `get_account` (`src/blockchain/mod.rs`): stored account, or the
default (`TOTAL_SUPPLY` for `Treasury`, zero otherwise). -/
def get_account {σ : Type} (env : Env) (I : KvIface σ) (s : σ) (addr : Address) :
    Res Account :=
  match I.kget s (.accountKey addr) with
  | some (.vaccount a) => .ok a
  | some _ => .error .kvStoreError
  | none => .ok { balance := if addr = .treasury then env.totalSupply else 0, nonce := 0 }

/-- `get_header` (`src/blockchain/mod.rs`). -/
def get_header {σ : Type} (I : KvIface σ) (s : σ) (index : Nat) : Res Header := do
  let height ← get_height I s
  if index ≥ height then throw .blockNotFound
  match I.kget s (.headerKey index) with
  | some (.vheader h) => pure h
  | some _ => throw .kvStoreError
  | none => throw .inconsistency

/-- `get_power` (`src/blockchain/mod.rs`): 0 at height 0, else the
stored `power_{height-1}`. -/
def get_power {σ : Type} (I : KvIface σ) (s : σ) : Res Nat := do
  let height ← get_height I s
  if height = 0 then
    pure 0
  else
    match I.kget s (.powerKey (height - 1)) with
    | some (.vnat p) => pure p
    | some _ => throw .kvStoreError
    | none => throw .inconsistency

/-- `get_contract` (`src/blockchain/mod.rs`). -/
def get_contract {σ : Type} (I : KvIface σ) (s : σ) (cid : ContractId) :
    Res ZkContract :=
  match I.kget s (.contractKey cid) with
  | some (.vcontract c) => .ok c
  | some _ => .error .kvStoreError
  | none => .error .contractNotFound

/-- `get_contract_account` (`src/blockchain/mod.rs`). -/
def get_contract_account {σ : Type} (I : KvIface σ) (s : σ) (cid : ContractId) :
    Res ContractAccount :=
  match I.kget s (.contractAccountKey cid) with
  | some (.vcontractAccount ca) => .ok ca
  | some _ => .error .kvStoreError
  | none => .error .contractNotFound

/-- `get_state` (`src/blockchain/mod.rs`): stored full contract state or
`ZkState::default()`. -/
def get_state {σ : Type} (I : KvIface σ) (s : σ) (cid : ContractId) : Res ZkState :=
  match I.kget s (.contractStateKey cid) with
  | some (.vzkState st) => .ok st
  | some _ => .error .kvStoreError
  | none => .ok zkStateDefault

/-- `get_outdated_states` (`src/blockchain/mod.rs`): the `outdated` key,
defaulting to the empty map. -/
def get_outdated_states {σ : Type} (I : KvIface σ) (s : σ) :
    Res (List (ContractId × ZkCompressedState)) :=
  match I.kget s .outdated with
  | some (.vstateMap m) => .ok m
  | some _ => .error .kvStoreError
  | none => .ok []

/-- `get_changed_states` (`src/blockchain/mod.rs`): the
`contract_updates_{index}` map, `Inconsistency` if absent. -/
def get_changed_states {σ : Type} (I : KvIface σ) (s : σ) (index : Nat) :
    Res (List (ContractId × ZkCompressedStateChange)) :=
  match I.kget s (.contractUpdatesKey index) with
  | some (.vupdatesMap m) => .ok m
  | some _ => .error .kvStoreError
  | none => .error .inconsistency

/-- Insertion into a sorted list, for `median` below. -/
def insertSorted (x : Nat) : List Nat → List Nat
  | [] => [x]
  | y :: l => if x ≤ y then x :: y :: l else y :: insertSorted x l

/-- Insertion sort, for `median` below. -/
def sortNat (l : List Nat) : List Nat := l.foldr insertSorted []

/-- `utils::median` (`utils.rs`, not among the given sources).
Modelled from the spec: "MTP(i) = median(timestamps ...)", with the
upper median of an even-length list as pinned down by the repository's
own test comment ("10 last timestamps are: 29 ... 20. Median is: 25"),
i.e. the element at index `len / 2` of the sorted list. -/
def median (l : List Nat) : Nat := (sortNat l).getD (l.length / 2) 0

/-- Collect the timestamps of headers `index - i` for the offsets `i` in
`l`, failing on the first missing header (the
`collect::<Result<Vec<u32>, _>>` of `median_timestamp`). -/
def header_timestamps {σ : Type} (I : KvIface σ) (s : σ) (index : Nat) :
    List Nat → Res (List Nat)
  | [] => pure []
  | i :: rest => do
    let h ← get_header I s (index - i)
    let ts ← header_timestamps I s index rest
    pure (h.proofOfWork.timestamp :: ts)

/-- `median_timestamp` (`src/blockchain/mod.rs`): median of the
timestamps of headers `index - i` for
`i < min(index + 1, MEDIAN_TIMESTAMP_COUNT)`. -/
def median_timestamp {σ : Type} (env : Env) (I : KvIface σ) (s : σ) (index : Nat) :
    Res Nat := do
  let ts ← header_timestamps I s index
    (List.range (min (index + 1) env.medianTimestampCount))
  pure (median ts)

/-- `pow_key` (`src/blockchain/mod.rs`): the base key before the change
delay, then the hash of the last rotation-boundary header. -/
def pow_key {σ : Type} (env : Env) (I : KvIface σ) (s : σ) (index : Nat) :
    Res Nat :=
  if index < env.powKeyChangeDelay then
    .ok env.powBaseKey
  else do
    let h ← get_header I s
      (((index - env.powKeyChangeDelay) / env.powKeyChangeInterval) *
        env.powKeyChangeInterval)
    pure (env.hashHeader h)

/-- `next_reward` (`src/blockchain/mod.rs`): the Treasury balance divided
by `REWARD_RATIO` (integer division). -/
def next_reward {σ : Type} (env : Env) (I : KvIface σ) (s : σ) : Res Nat := do
  let acc ← get_account env I s .treasury
  pure (acc.balance / env.rewardRatio)

/-- The body of the `for h in headers.iter()` loop of `will_extend`
(`src/blockchain/mod.rs`), threading the loop state
`(last_header, last_pow, new_power)`. -/
def will_extend_step {σ : Type} (env : Env) (I : KvIface σ) (s : σ) (from_ : Nat)
    (checkPow : Bool) (st : Header × ProofOfWork × Nat) (h : Header) :
    Res (Header × ProofOfWork × Nat) := do
  let (last_header, last_pow, new_power) := st
  let last_pow ←
    if h.number % env.difficultyCalcInterval = 0 then do
      if h.proofOfWork.target ≠
          env.calcPowDifficulty last_header.proofOfWork last_pow then
        throw .difficultyTargetWrong
      pure h.proofOfWork
    else
      pure last_pow
  let pk ← pow_key env I s h.number
  let mt ← median_timestamp env I s (from_ - 1)
  if h.proofOfWork.timestamp < mt then throw .invalidTimestamp
  if last_pow.target ≠ h.proofOfWork.target then throw .difficultyTargetWrong
  if checkPow ∧ ¬env.meetsTarget h pk then throw .difficultyTargetUnmet
  if h.number ≠ last_header.number + 1 then throw .invalidBlockNumber
  if h.parentHash ≠ env.hashHeader last_header then throw .invalidParentHash
  pure (h, last_pow, new_power + env.headerPower h)

/-- `will_extend` (`src/blockchain/mod.rs`): check that the candidate
header chain starting at `from` would extend the current chain, i.e.
that it links correctly, respects the difficulty and median-time-past
rules, and accumulates strictly more power than the current chain. -/
def will_extend {σ : Type} (env : Env) (I : KvIface σ) (s : σ) (from_ : Nat)
    (headers : List Header) (checkPow : Bool) : Res Bool := do
  let current_power ← get_power I s
  if from_ = 0 then
    throw .extendFromGenesis
  else do
    let ht ← get_height I s
    if from_ > ht then throw .extendFromFuture
  let new_power ←
    match I.kget s (.powerKey (from_ - 1)) with
    | none => throw .inconsistency
    | some (.vnat p) => pure p
    | some _ => throw .kvStoreError
  let last_header ← get_header I s (from_ - 1)
  let anchor ← get_header I s
    (last_header.number - last_header.number % env.difficultyCalcInterval)
  let last_pow := anchor.proofOfWork
  let st ← headers.foldlM (will_extend_step env I s from_ checkPow)
    (last_header, last_pow, new_power)
  pure (st.2.2 > current_power)

/-- `apply_tx` (`src/blockchain/mod.rs`): validate and apply a single
transaction, returning the updated store and the side effect.  The
write ops are accumulated exactly as in the source and committed with a
single `update` at the end. -/
def apply_tx {σ : Type} (env : Env) (I : KvIface σ) (s : σ) (tx : Transaction)
    (allowTreasury : Bool) : Res (σ × TxSideEffect) := do
  let acc_src ← get_account env I s tx.src
  if tx.src = .treasury ∧ ¬allowTreasury then throw .illegalTreasuryAccess
  if ¬verify_signature env tx then throw .signatureError
  if tx.nonce ≠ acc_src.nonce + 1 then throw .invalidTransactionNonce
  if acc_src.balance < tx.fee then throw .balanceInsufficient
  let acc_src : Account :=
    { acc_src with balance := acc_src.balance - tx.fee, nonce := acc_src.nonce + 1 }
  let branch : Res (List WriteOp × Account × TxSideEffect) ←
    match tx.data with
    | .regularSend dst amount => do
      if acc_src.balance < amount then throw .balanceInsufficient
      if dst ≠ tx.src then do
        let acc_dst ← get_account env I s dst
        pure (Res.ok
          ([(.accountKey dst, some (.vaccount { acc_dst with balance := acc_dst.balance + amount }))],
            { acc_src with balance := acc_src.balance - amount },
            TxSideEffect.nothing))
      else
        pure (Res.ok ([], acc_src, TxSideEffect.nothing))
    | .createContract contract => do
      let contract_id := env.contractIdOf tx
      pure (Res.ok
        ([(.contractKey contract_id, some (.vcontract contract)),
          (.contractAccountKey contract_id, some (.vcontractAccount
            { height := 1, compressedState := contract.initialState, balance := 0 })),
          (.contractCompressedStateKey contract_id 1, some (.vcompressed contract.initialState))],
          acc_src,
          TxSideEffect.stateChange contract_id
            { prevState := env.zkCompress zkStateDefault contract.stateModel,
              state := contract.initialState }))
    | .depositWithdraw contract_id _ next_state proof => do
      let contract ← get_contract I s contract_id
      let prev_account ← get_contract_account I s contract_id
      let aux_data := zkCompressedDefault
      let okp ← check_proof env contract.depositWithdraw prev_account.compressedState
        aux_data next_state proof
      if ¬okp then throw .incorrectZkProof
      pure (Res.ok
        ([(.contractAccountKey contract_id, some (.vcontractAccount
            { height := prev_account.height + 1, compressedState := next_state, balance := 0 })),
          (.contractCompressedStateKey contract_id (prev_account.height + 1),
            some (.vcompressed next_state))],
          acc_src,
          TxSideEffect.stateChange contract_id
            { prevState := prev_account.compressedState, state := next_state }))
    | .update contract_id function_id next_state proof => do
      let contract ← get_contract I s contract_id
      let prev_account ← get_contract_account I s contract_id
      let aux_data := zkCompressedDefault
      match contract.update.get? function_id with
      | none => throw .contractFunctionNotFound
      | some vk => do
        let okp ← check_proof env vk prev_account.compressedState aux_data next_state proof
        if ¬okp then throw .incorrectZkProof
        pure (Res.ok
          ([(.contractAccountKey contract_id, some (.vcontractAccount
              { height := prev_account.height + 1, compressedState := next_state, balance := 0 })),
            (.contractCompressedStateKey contract_id (prev_account.height + 1),
              some (.vcompressed next_state))],
            acc_src,
            TxSideEffect.stateChange contract_id
              { prevState := prev_account.compressedState, state := next_state }))
  let (ops, acc_src, side_effect) ← branch
  let ops := ops ++ [(.accountKey tx.src, some (.vaccount acc_src))]
  pure (I.kupdate s ops, side_effect)

theorem get_account_error {σ : Type} (env : Env) (I : KvIface σ) (s : σ)
    (addr : Address) (e : BlockchainError) :
    get_account env I s addr = .error e → e = .kvStoreError := by
  unfold get_account
  split <;> intro h <;> simp_all

theorem get_contract_error {σ : Type} (I : KvIface σ) (s : σ) (cid : ContractId)
    (e : BlockchainError) :
    get_contract I s cid = .error e →
      e = .kvStoreError ∨ e = .contractNotFound := by
  unfold get_contract
  split <;> intro h <;> simp_all

theorem get_contract_account_error {σ : Type} (I : KvIface σ) (s : σ)
    (cid : ContractId) (e : BlockchainError) :
    get_contract_account I s cid = .error e →
      e = .kvStoreError ∨ e = .contractNotFound := by
  unfold get_contract_account
  split <;> intro h <;> simp_all

theorem check_proof_no_error (env : Env) (vk : ZkVerifierKey)
    (prev aux next : ZkCompressedState) (proof : ZkProof) (e : BlockchainError) :
    check_proof env vk prev aux next proof ≠ .error e := by
  unfold check_proof
  split <;> simp

theorem Res.throw_def {α : Type} (e : BlockchainError) :
    (throw e : Res α) = Res.error e := rfl

theorem Res.pure_def {α : Type} (a : α) : (pure a : Res α) = Res.ok a := rfl

theorem Res.bind_eq_error {α β : Type} {r : Res α} {f : α → Res β}
    {e : BlockchainError} :
    (r >>= f) = .error e → r = .error e ∨ ∃ a, r = .ok a ∧ f a = .error e := by
  cases r with
  | panic => simp [Res.bind_panic]
  | error e0 =>
    simp only [Res.bind_error]
    intro h
    injection h with he
    exact Or.inl (by rw [he])
  | ok a =>
    rw [Res.bind_ok]
    intro h
    exact Or.inr ⟨a, rfl, h⟩

theorem Res.bind_eq_ok {α β : Type} {r : Res α} {f : α → Res β} {b : β} :
    (r >>= f) = .ok b → ∃ a, r = .ok a ∧ f a = .ok b := by
  cases r with
  | panic => simp [Res.bind_panic]
  | error e0 => simp [Res.bind_error]
  | ok a =>
    rw [Res.bind_ok]
    intro h
    exact ⟨a, rfl, h⟩

theorem lastTouch_append_last (l : List WriteOp) (k : StringKey)
    (v? : Option Value) : lastTouch (l ++ [(k, v?)]) k = some v? := by
  induction l with
  | nil => simp [lastTouch, Option.orElse]
  | cons op rest ih =>
    show (lastTouch (rest ++ [(k, v?)]) k).orElse _ = _
    rw [ih]
    rfl

/-- Reading back the key written by the final op of an update batch. -/
theorem ramGet_update_last (s : Store) (ops : List WriteOp) (k : StringKey)
    (v? : Option Value) :
    ramGet (ramUpdate s (ops ++ [(k, v?)])) k = v? := by
  rw [ramGet_ramUpdate, lastTouch_append_last]
  rfl

/-- C10: signature verification always succeeds for Treasury-sourced
transactions (`Transaction::verify_signature` returns `true` whenever
`src = Treasury`, whatever the `sig` field holds), and consequently
`apply_tx` can never return `SignatureError` for a Treasury-sourced
transaction. -/
theorem treasury_never_signature_error {σ : Type} (env : Env) (I : KvIface σ)
    (s : σ) (tx : Transaction) (allowTreasury : Bool)
    (h : tx.src = .treasury) :
    verify_signature env tx = true ∧
      apply_tx env I s tx allowTreasury ≠ Res.error .signatureError := by
  have hv : verify_signature env tx = true := by
    unfold verify_signature; rw [h]
  refine ⟨hv, fun hcontra => ?_⟩
  unfold apply_tx at hcontra
  cases hr : get_account env I s tx.src with
  | panic =>
    rw [hr] at hcontra
    simp [Res.bind_panic] at hcontra
  | error e =>
    rw [hr] at hcontra
    simp only [Res.bind_error] at hcontra
    injection hcontra with he
    rw [he] at hr
    have hclass := get_account_error env I s tx.src _ hr
    simp at hclass
  | ok acc =>
    rw [hr] at hcontra
    simp only [Res.bind_ok, hv, not_true, if_false, ite_false, if_neg,
      Res.throw_def, Res.pure_def, Res.bind_error] at hcontra
    split at hcontra
    · simp [Res.pure_def, Res.bind_ok, Res.bind_error] at hcontra
    split at hcontra
    · simp [Res.pure_def, Res.bind_ok, Res.bind_error] at hcontra
    split at hcontra
    · simp [Res.pure_def, Res.bind_ok, Res.bind_error] at hcontra
    split at hcontra
    · -- RegularSend
      split at hcontra
      · simp [Res.pure_def, Res.bind_ok, Res.bind_error] at hcontra
      split at hcontra
      · -- dst ≠ src
        rcases Res.bind_eq_error hcontra with hd | ⟨acc_dst, _, hcontra⟩
        · have := get_account_error _ _ _ _ _ hd
          exact BlockchainError.noConfusion this
        · simp [Res.pure_def, Res.bind_ok, Res.bind_error] at hcontra
      · simp [Res.pure_def, Res.bind_ok, Res.bind_error] at hcontra
    · -- CreateContract
      simp [Res.pure_def, Res.bind_ok, Res.bind_error] at hcontra
    · -- DepositWithdraw
      rcases Res.bind_eq_error hcontra with hd | ⟨contract, _, hcontra⟩
      · rcases get_contract_error _ _ _ _ hd with h1 | h1 <;>
          exact BlockchainError.noConfusion h1
      rcases Res.bind_eq_error hcontra with hd | ⟨prev_account, _, hcontra⟩
      · rcases get_contract_account_error _ _ _ _ hd with h1 | h1 <;>
          exact BlockchainError.noConfusion h1
      rcases Res.bind_eq_error hcontra with hd | ⟨okp, _, hcontra⟩
      · exact check_proof_no_error _ _ _ _ _ _ _ hd
      split at hcontra
      · simp [Res.pure_def, Res.bind_ok, Res.bind_error] at hcontra
      · simp [Res.pure_def, Res.bind_ok, Res.bind_error] at hcontra
    · -- Update
      rcases Res.bind_eq_error hcontra with hd | ⟨contract, _, hcontra⟩
      · rcases get_contract_error _ _ _ _ hd with h1 | h1 <;>
          exact BlockchainError.noConfusion h1
      rcases Res.bind_eq_error hcontra with hd | ⟨prev_account, _, hcontra⟩
      · rcases get_contract_account_error _ _ _ _ hd with h1 | h1 <;>
          exact BlockchainError.noConfusion h1
      split at hcontra
      · simp [Res.pure_def, Res.bind_ok, Res.bind_error] at hcontra
      rcases Res.bind_eq_error hcontra with hd | ⟨okp, _, hcontra⟩
      · exact check_proof_no_error _ _ _ _ _ _ _ hd
      split at hcontra
      · simp [Res.pure_def, Res.bind_ok, Res.bind_error] at hcontra
      · simp [Res.pure_def, Res.bind_ok, Res.bind_error] at hcontra

theorem Account.balance_mk (b n : Nat) :
    (Account.mk b n).balance = b := rfl

theorem Account.nonce_mk (b n : Nat) :
    (Account.mk b n).nonce = n := rfl

/-- Reading back the source account written by the final op of an
`apply_tx` batch. -/
theorem get_account_after_update (env : Env) (S : Store) (ops : List WriteOp)
    (addr : Address) (A : Account) :
    get_account env ramKv
      (ramKv.kupdate S (ops ++ [(.accountKey addr, some (.vaccount A))])) addr =
      Res.ok A := by
  simp [get_account, ramKv, ramGet_update_last]

/-- C5: `apply_tx` performs its validation checks in order — Treasury
source without `allow_treasury` gives `IllegalTreasuryAccess`; then a
failing signature gives `SignatureError`; then a nonce different from
the source account's nonce + 1 gives `InvalidTransactionNonce`; then a
source balance below the fee gives `BalanceInsufficient`; and on success
the fee is deducted (the resulting source balance plus the fee is at
most the old balance, the rest of the deduction being the transferred
amount) and the source nonce is advanced by exactly 1. -/
theorem apply_tx_check_order (env : Env) (S : Store) (tx : Transaction)
    (allowTreasury : Bool) (acc : Account)
    (hacc : get_account env ramKv S tx.src = Res.ok acc) :
    (tx.src = .treasury → allowTreasury = false →
      apply_tx env ramKv S tx allowTreasury = .error .illegalTreasuryAccess) ∧
    (¬(tx.src = .treasury ∧ ¬allowTreasury = true) →
      verify_signature env tx = false →
      apply_tx env ramKv S tx allowTreasury = .error .signatureError) ∧
    (¬(tx.src = .treasury ∧ ¬allowTreasury = true) →
      verify_signature env tx = true →
      tx.nonce ≠ acc.nonce + 1 →
      apply_tx env ramKv S tx allowTreasury = .error .invalidTransactionNonce) ∧
    (¬(tx.src = .treasury ∧ ¬allowTreasury = true) →
      verify_signature env tx = true →
      tx.nonce = acc.nonce + 1 →
      acc.balance < tx.fee →
      apply_tx env ramKv S tx allowTreasury = .error .balanceInsufficient) ∧
    (∀ S' se, apply_tx env ramKv S tx allowTreasury = .ok (S', se) →
      ∃ acc', get_account env ramKv S' tx.src = .ok acc' ∧
        acc'.nonce = acc.nonce + 1 ∧ acc'.balance + tx.fee ≤ acc.balance) := by
  refine ⟨?_, ?_, ?_, ?_, ?_⟩
  · intro h1 h2
    simp only [apply_tx, hacc, Res.bind_ok, Res.pure_def, Res.bind_error,
      Res.throw_def]
    rw [if_pos ⟨h1, by simp [h2]⟩]
  · intro h1 h2
    simp only [apply_tx, hacc, Res.bind_ok, Res.pure_def, Res.bind_error,
      Res.throw_def]
    rw [if_neg h1, if_pos (by simp [h2])]
  · intro h1 h2 h3
    simp only [apply_tx, hacc, Res.bind_ok, Res.pure_def, Res.bind_error,
      Res.throw_def]
    rw [if_neg h1, if_neg (by simp [h2]), if_pos h3]
  · intro h1 h2 h3 h4
    simp only [apply_tx, hacc, Res.bind_ok, Res.pure_def, Res.bind_error,
      Res.throw_def]
    rw [if_neg h1, if_neg (by simp [h2]), if_neg (by simp [h3]), if_pos h4]
  · intro S' se hsucc
    unfold apply_tx at hsucc
    rw [hacc] at hsucc
    simp only [Res.bind_ok, Res.pure_def, Res.bind_error, Res.throw_def] at hsucc
    split at hsucc
    · simp at hsucc
    split at hsucc
    · simp at hsucc
    split at hsucc
    · simp at hsucc
    split at hsucc
    · simp at hsucc
    case _ hfee _ =>
    split at hsucc
    · -- RegularSend
      split at hsucc
      · simp at hsucc
      split at hsucc
      · -- dst ≠ src
        rcases Res.bind_eq_ok hsucc with ⟨acc_dst, _, hsucc⟩
        simp only [Res.bind_ok, Res.pure_def, Res.ok.injEq, Prod.mk.injEq] at hsucc
        obtain ⟨hS, _⟩ := hsucc
        rw [← hS]
        refine ⟨_, get_account_after_update env S _ tx.src _, rfl, ?_⟩
        simp only [Account.balance_mk]
        omega
      · -- dst = src: fee-only
        simp only [Res.bind_ok, Res.pure_def, Res.ok.injEq, Prod.mk.injEq] at hsucc
        obtain ⟨hS, _⟩ := hsucc
        rw [← hS]
        refine ⟨_, get_account_after_update env S _ tx.src _, rfl, ?_⟩
        simp only [Account.balance_mk]
        omega
    · -- CreateContract
      simp only [Res.bind_ok, Res.pure_def, Res.ok.injEq, Prod.mk.injEq] at hsucc
      obtain ⟨hS, _⟩ := hsucc
      rw [← hS]
      refine ⟨_, get_account_after_update env S _ tx.src _, rfl, ?_⟩
      simp only [Account.balance_mk]
      omega
    · -- DepositWithdraw
      rcases Res.bind_eq_ok hsucc with ⟨contract, _, hsucc⟩
      rcases Res.bind_eq_ok hsucc with ⟨prev_account, _, hsucc⟩
      rcases Res.bind_eq_ok hsucc with ⟨okp, _, hsucc⟩
      split at hsucc
      · simp at hsucc
      simp only [Res.bind_ok, Res.pure_def, Res.ok.injEq, Prod.mk.injEq] at hsucc
      obtain ⟨hS, _⟩ := hsucc
      rw [← hS]
      refine ⟨_, get_account_after_update env S _ tx.src _, rfl, ?_⟩
      simp only [Account.balance_mk]
      omega
    · -- Update
      rcases Res.bind_eq_ok hsucc with ⟨contract, _, hsucc⟩
      rcases Res.bind_eq_ok hsucc with ⟨prev_account, _, hsucc⟩
      split at hsucc
      · simp at hsucc
      rcases Res.bind_eq_ok hsucc with ⟨okp, _, hsucc⟩
      split at hsucc
      · simp at hsucc
      simp only [Res.bind_ok, Res.pure_def, Res.ok.injEq, Prod.mk.injEq] at hsucc
      obtain ⟨hS, _⟩ := hsucc
      rw [← hS]
      refine ⟨_, get_account_after_update env S _ tx.src _, rfl, ?_⟩
      simp only [Account.balance_mk]
      omega

theorem get_height_error {σ : Type} (I : KvIface σ) (s : σ) (e : BlockchainError) :
    get_height I s = .error e → e = .kvStoreError := by
  unfold get_height
  split <;> intro h <;> simp_all

theorem get_header_error {σ : Type} (I : KvIface σ) (s : σ) (index : Nat)
    (e : BlockchainError) :
    get_header I s index = .error e →
      e = .blockNotFound ∨ e = .inconsistency ∨ e = .kvStoreError := by
  intro h
  unfold get_header at h
  rcases Res.bind_eq_error h with hge | ⟨ht, _, h⟩
  · exact Or.inr (Or.inr (get_height_error _ _ _ hge))
  · split at h <;> split at h <;>
      simp_all [Res.throw_def, Res.pure_def, Res.bind_error, Res.bind_ok]

theorem get_power_error {σ : Type} (I : KvIface σ) (s : σ) (e : BlockchainError) :
    get_power I s = .error e → e = .kvStoreError ∨ e = .inconsistency := by
  intro h
  unfold get_power at h
  rcases Res.bind_eq_error h with hge | ⟨ht, _, h⟩
  · exact Or.inl (get_height_error _ _ _ hge)
  · split at h
    · simp [Res.pure_def] at h
    · split at h <;> simp_all [Res.throw_def, Res.pure_def]

theorem pow_key_error {σ : Type} (env : Env) (I : KvIface σ) (s : σ) (index : Nat)
    (e : BlockchainError) :
    pow_key env I s index = .error e →
      e = .blockNotFound ∨ e = .inconsistency ∨ e = .kvStoreError := by
  intro h
  unfold pow_key at h
  split at h
  · simp at h
  · rcases Res.bind_eq_error h with hge | ⟨h0, _, h⟩
    · exact get_header_error _ _ _ _ hge
    · simp [Res.pure_def] at h

theorem header_timestamps_error {σ : Type} (I : KvIface σ) (s : σ) (index : Nat)
    (l : List Nat) (e : BlockchainError) :
    header_timestamps I s index l = .error e →
      e = .blockNotFound ∨ e = .inconsistency ∨ e = .kvStoreError := by
  induction l with
  | nil => intro h; simp [header_timestamps, Res.pure_def] at h
  | cons i rest ih =>
    intro h
    unfold header_timestamps at h
    rcases Res.bind_eq_error h with hge | ⟨h0, _, h⟩
    · exact get_header_error _ _ _ _ hge
    · rcases Res.bind_eq_error h with hge | ⟨ts, _, h⟩
      · exact ih hge
      · simp [Res.pure_def] at h

theorem median_timestamp_error {σ : Type} (env : Env) (I : KvIface σ) (s : σ)
    (index : Nat) (e : BlockchainError) :
    median_timestamp env I s index = .error e →
      e = .blockNotFound ∨ e = .inconsistency ∨ e = .kvStoreError := by
  intro h
  unfold median_timestamp at h
  rcases Res.bind_eq_error h with hge | ⟨ts, _, h⟩
  · exact header_timestamps_error _ _ _ _ _ hge
  · simp [Res.pure_def] at h

/-- The loop body of `will_extend` never produces the topology errors
`ExtendFromGenesis` / `ExtendFromFuture`. -/
theorem will_extend_step_error {σ : Type} (env : Env) (I : KvIface σ) (s : σ)
    (from_ : Nat) (checkPow : Bool) (st : Header × ProofOfWork × Nat) (h : Header)
    (e : BlockchainError) :
    will_extend_step env I s from_ checkPow st h = .error e →
      e ≠ .extendFromGenesis ∧ e ≠ .extendFromFuture := by
  intro hc
  obtain ⟨lh, lp, np⟩ := st
  unfold will_extend_step at hc
  simp only [Res.throw_def, Res.pure_def, Res.bind_ok, Res.bind_error] at hc
  split at hc
  · split at hc
    · injection hc with he; subst he; exact ⟨by simp, by simp⟩
    · rcases Res.bind_eq_error hc with hpk | ⟨pk, _, hc⟩
      · rcases pow_key_error _ _ _ _ _ hpk with h1 | h1 | h1 <;> subst h1 <;>
          exact ⟨by simp, by simp⟩
      rcases Res.bind_eq_error hc with hmt | ⟨mt, _, hc⟩
      · rcases median_timestamp_error _ _ _ _ _ hmt with h1 | h1 | h1 <;>
          subst h1 <;> exact ⟨by simp, by simp⟩
      split at hc
      · injection hc with he; subst he; exact ⟨by simp, by simp⟩
      split at hc
      · injection hc with he; subst he; exact ⟨by simp, by simp⟩
      split at hc
      · injection hc with he; subst he; exact ⟨by simp, by simp⟩
      split at hc
      · injection hc with he; subst he; exact ⟨by simp, by simp⟩
      split at hc
      · injection hc with he; subst he; exact ⟨by simp, by simp⟩
      · simp at hc
  · rcases Res.bind_eq_error hc with hpk | ⟨pk, _, hc⟩
    · rcases pow_key_error _ _ _ _ _ hpk with h1 | h1 | h1 <;> subst h1 <;>
        exact ⟨by simp, by simp⟩
    rcases Res.bind_eq_error hc with hmt | ⟨mt, _, hc⟩
    · rcases median_timestamp_error _ _ _ _ _ hmt with h1 | h1 | h1 <;>
        subst h1 <;> exact ⟨by simp, by simp⟩
    split at hc
    · injection hc with he; subst he; exact ⟨by simp, by simp⟩
    split at hc
    · injection hc with he; subst he; exact ⟨by simp, by simp⟩
    split at hc
    · injection hc with he; subst he; exact ⟨by simp, by simp⟩
    split at hc
    · injection hc with he; subst he; exact ⟨by simp, by simp⟩
    split at hc
    · injection hc with he; subst he; exact ⟨by simp, by simp⟩
    · simp at hc

/-- Folding the `will_extend` loop over the candidate headers never
produces `ExtendFromGenesis` / `ExtendFromFuture`. -/
theorem will_extend_fold_error {σ : Type} (env : Env) (I : KvIface σ) (s : σ)
    (from_ : Nat) (checkPow : Bool) (headers : List Header)
    (st : Header × ProofOfWork × Nat) (e : BlockchainError) :
    headers.foldlM (will_extend_step env I s from_ checkPow) st = .error e →
      e ≠ .extendFromGenesis ∧ e ≠ .extendFromFuture := by
  induction headers generalizing st with
  | nil => intro h; simp [List.foldlM, Res.pure_def] at h
  | cons hd tl ih =>
    intro h
    rw [List.foldlM_cons] at h
    rcases Res.bind_eq_error h with hst | ⟨st', _, h⟩
    · exact will_extend_step_error _ _ _ _ _ _ _ _ hst
    · exact ih st' h

/-- The power accumulated by a successful `will_extend` loop is the
initial power plus the sum of the candidate headers' works. -/
theorem will_extend_fold_power {σ : Type} (env : Env) (I : KvIface σ) (s : σ)
    (from_ : Nat) (checkPow : Bool) (headers : List Header)
    (st fin : Header × ProofOfWork × Nat) :
    headers.foldlM (will_extend_step env I s from_ checkPow) st = .ok fin →
      fin.2.2 = st.2.2 + (headers.map env.headerPower).sum := by
  induction headers generalizing st with
  | nil =>
    intro h
    simp only [List.foldlM, Res.pure_def, Res.ok.injEq] at h
    simp [← h]
  | cons hd tl ih =>
    intro h
    rw [List.foldlM_cons] at h
    rcases Res.bind_eq_ok h with ⟨st', hstep, h⟩
    have hsum := ih st' h
    have hinc : st'.2.2 = st.2.2 + env.headerPower hd := by
      obtain ⟨lh, lp, np⟩ := st
      unfold will_extend_step at hstep
      simp only [Res.throw_def, Res.pure_def, Res.bind_ok, Res.bind_error] at hstep
      split at hstep
      · split at hstep
        · simp at hstep
        · rcases Res.bind_eq_ok hstep with ⟨pk, _, hstep⟩
          rcases Res.bind_eq_ok hstep with ⟨mt, _, hstep⟩
          split at hstep
          · simp at hstep
          split at hstep
          · simp at hstep
          split at hstep
          · simp at hstep
          split at hstep
          · simp at hstep
          split at hstep
          · simp at hstep
          · injection hstep with he
            rw [← he]
      · rcases Res.bind_eq_ok hstep with ⟨pk, _, hstep⟩
        rcases Res.bind_eq_ok hstep with ⟨mt, _, hstep⟩
        split at hstep
        · simp at hstep
        split at hstep
        · simp at hstep
        split at hstep
        · simp at hstep
        split at hstep
        · simp at hstep
        split at hstep
        · simp at hstep
        · injection hstep with he
          rw [← he]
    rw [hsum, hinc]
    simp [Nat.add_assoc]

/-- C4: `will_extend` returns `ExtendFromGenesis` exactly when `from = 0`
and `ExtendFromFuture` exactly when `from` exceeds the current height
(given that the power and height reads succeed), and when it completes
without error it returns `true` if and only if the cumulative power of
the proposed chain — the stored power at `from - 1` plus the work of
each candidate header — strictly exceeds the current cumulative power;
a tie never counts as an extension. -/
theorem will_extend_topology_and_power {σ : Type} (env : Env) (I : KvIface σ)
    (s : σ) (from_ : Nat) (headers : List Header) (checkPow : Bool) (cp ht : Nat)
    (hp : get_power I s = Res.ok cp) (hh : get_height I s = Res.ok ht) :
    (will_extend env I s from_ headers checkPow =
        .error .extendFromGenesis ↔ from_ = 0) ∧
    (will_extend env I s from_ headers checkPow =
        .error .extendFromFuture ↔ from_ ≠ 0 ∧ from_ > ht) ∧
    (∀ b, will_extend env I s from_ headers checkPow = .ok b →
      ∃ p0, I.kget s (.powerKey (from_ - 1)) = some (.vnat p0) ∧
        (b = true ↔ p0 + (headers.map env.headerPower).sum > cp)) := by
  by_cases h0 : from_ = 0
  · subst h0
    have hw : will_extend env I s 0 headers checkPow =
        .error .extendFromGenesis := by
      unfold will_extend
      rw [hp]
      simp only [Res.bind_ok]
      rw [if_pos trivial]
      simp [Res.throw_def, Res.bind_error]
    refine ⟨by simp [hw], by simp [hw], ?_⟩
    intro b hb
    rw [hw] at hb
    simp at hb
  · by_cases h1 : from_ > ht
    · have hw : will_extend env I s from_ headers checkPow =
          .error .extendFromFuture := by
        unfold will_extend
        rw [hp]
        simp only [Res.bind_ok]
        rw [if_neg h0, hh]
        simp only [Res.bind_ok]
        rw [if_pos h1]
        simp [Res.throw_def, Res.bind_error]
      refine ⟨by simp [hw, h0], by simp [hw, h0, h1], ?_⟩
      intro b hb
      rw [hw] at hb
      simp at hb
    · have herr : ∀ e, will_extend env I s from_ headers checkPow = .error e →
          e ≠ .extendFromGenesis ∧ e ≠ .extendFromFuture := by
        intro e he
        unfold will_extend at he
        rw [hp] at he
        simp only [Res.bind_ok] at he
        rw [if_neg h0, hh] at he
        simp only [Res.bind_ok] at he
        rw [if_neg h1] at he
        simp only [Res.throw_def, Res.pure_def, Res.bind_ok, Res.bind_error] at he
        split at he
        · injection he with he2; subst he2; exact ⟨by simp, by simp⟩
        · rcases Res.bind_eq_error he with hge | ⟨lh, _, he⟩
          · rcases get_header_error _ _ _ _ hge with h2 | h2 | h2 <;> subst h2 <;>
              exact ⟨by simp, by simp⟩
          rcases Res.bind_eq_error he with hge | ⟨anchor, _, he⟩
          · rcases get_header_error _ _ _ _ hge with h2 | h2 | h2 <;> subst h2 <;>
              exact ⟨by simp, by simp⟩
          rcases Res.bind_eq_error he with hf | ⟨fin, _, he⟩
          · exact will_extend_fold_error _ _ _ _ _ _ _ _ hf
          · simp at he
        · injection he with he2; subst he2; exact ⟨by simp, by simp⟩
      have hok : ∀ b, will_extend env I s from_ headers checkPow = .ok b →
          ∃ p0, I.kget s (.powerKey (from_ - 1)) = some (.vnat p0) ∧
            (b = true ↔ p0 + (headers.map env.headerPower).sum > cp) := by
        intro b hb
        unfold will_extend at hb
        rw [hp] at hb
        simp only [Res.bind_ok] at hb
        rw [if_neg h0, hh] at hb
        simp only [Res.bind_ok] at hb
        rw [if_neg h1] at hb
        simp only [Res.throw_def, Res.pure_def, Res.bind_ok, Res.bind_error] at hb
        split at hb
        · simp at hb
        · case _ p hkget =>
          rcases Res.bind_eq_ok hb with ⟨lh, _, hb⟩
          rcases Res.bind_eq_ok hb with ⟨anchor, _, hb⟩
          rcases Res.bind_eq_ok hb with ⟨fin, hfold, hb⟩
          injection hb with hb2
          refine ⟨p, hkget, ?_⟩
          have hpow := will_extend_fold_power env I s from_ checkPow headers _ _ hfold
          simp only at hpow
          rw [← hb2]
          simp only [decide_eq_true_eq, hpow]
        · simp at hb
      refine ⟨?_, ?_, hok⟩
      · constructor
        · intro hw
          exact absurd rfl (herr _ hw).1
        · intro hw
          exact absurd hw h0
      · constructor
        · intro hw
          exact absurd rfl (herr _ hw).2
        · intro hw
          exact absurd hw.2 h1

/-- A successful `will_extend` loop step implies the candidate's
timestamp is not below the fork-point median-time-past. -/
theorem will_extend_step_ts_ok {σ : Type} (env : Env) (I : KvIface σ) (s : σ)
    (from_ : Nat) (checkPow : Bool) (m : Nat)
    (hm : median_timestamp env I s (from_ - 1) = .ok m)
    (st fin : Header × ProofOfWork × Nat) (h : Header)
    (hstep : will_extend_step env I s from_ checkPow st h = .ok fin) :
    ¬h.proofOfWork.timestamp < m := by
  obtain ⟨lh, lp, np⟩ := st
  unfold will_extend_step at hstep
  simp only [Res.throw_def, Res.pure_def, Res.bind_ok, Res.bind_error] at hstep
  split at hstep
  · split at hstep
    · simp at hstep
    · rcases Res.bind_eq_ok hstep with ⟨pk, _, hstep⟩
      rcases Res.bind_eq_ok hstep with ⟨mt, hmt, hstep⟩
      rw [hm] at hmt
      injection hmt with hmt
      subst hmt
      split at hstep
      · simp at hstep
      · assumption
  · rcases Res.bind_eq_ok hstep with ⟨pk, _, hstep⟩
    rcases Res.bind_eq_ok hstep with ⟨mt, hmt, hstep⟩
    rw [hm] at hmt
    injection hmt with hmt
    subst hmt
    split at hstep
    · simp at hstep
    · assumption

/-- An `InvalidTimestamp` error from a `will_extend` loop step implies the
candidate's timestamp is below the fork-point median-time-past. -/
theorem will_extend_step_ts_err {σ : Type} (env : Env) (I : KvIface σ) (s : σ)
    (from_ : Nat) (checkPow : Bool) (m : Nat)
    (hm : median_timestamp env I s (from_ - 1) = .ok m)
    (st : Header × ProofOfWork × Nat) (h : Header)
    (hstep : will_extend_step env I s from_ checkPow st h =
      .error .invalidTimestamp) :
    h.proofOfWork.timestamp < m := by
  obtain ⟨lh, lp, np⟩ := st
  unfold will_extend_step at hstep
  simp only [Res.throw_def, Res.pure_def, Res.bind_ok, Res.bind_error] at hstep
  split at hstep
  · split at hstep
    · simp at hstep
    · rcases Res.bind_eq_error hstep with hpk | ⟨pk, _, hstep⟩
      · rcases pow_key_error _ _ _ _ _ hpk with h1 | h1 | h1 <;> cases h1
      rcases Res.bind_eq_error hstep with hmt | ⟨mt, hmt, hstep⟩
      · rcases median_timestamp_error _ _ _ _ _ hmt with h1 | h1 | h1 <;> cases h1
      rw [hm] at hmt
      injection hmt with hmt
      subst hmt
      split at hstep
      · assumption
      split at hstep
      · simp at hstep
      split at hstep
      · simp at hstep
      split at hstep
      · simp at hstep
      split at hstep
      · simp at hstep
      · simp at hstep
  · rcases Res.bind_eq_error hstep with hpk | ⟨pk, _, hstep⟩
    · rcases pow_key_error _ _ _ _ _ hpk with h1 | h1 | h1 <;> cases h1
    rcases Res.bind_eq_error hstep with hmt | ⟨mt, hmt, hstep⟩
    · rcases median_timestamp_error _ _ _ _ _ hmt with h1 | h1 | h1 <;> cases h1
    rw [hm] at hmt
    injection hmt with hmt
    subst hmt
    split at hstep
    · assumption
    split at hstep
    · simp at hstep
    split at hstep
    · simp at hstep
    split at hstep
    · simp at hstep
    split at hstep
    · simp at hstep
    · simp at hstep

theorem will_extend_fold_ts_ok {σ : Type} (env : Env) (I : KvIface σ) (s : σ)
    (from_ : Nat) (checkPow : Bool) (m : Nat)
    (hm : median_timestamp env I s (from_ - 1) = .ok m)
    (headers : List Header) (st fin : Header × ProofOfWork × Nat)
    (hfold : headers.foldlM (will_extend_step env I s from_ checkPow) st =
      .ok fin) :
    ∀ h ∈ headers, ¬h.proofOfWork.timestamp < m := by
  induction headers generalizing st with
  | nil => intro h hmem; cases hmem
  | cons hd tl ih =>
    rw [List.foldlM_cons] at hfold
    rcases Res.bind_eq_ok hfold with ⟨st', hstep, hfold⟩
    intro h hmem
    rcases hmem with _ | hmem
    · exact will_extend_step_ts_ok env I s from_ checkPow m hm _ _ _ hstep
    · exact ih st' hfold h (by assumption)

theorem will_extend_fold_ts_err {σ : Type} (env : Env) (I : KvIface σ) (s : σ)
    (from_ : Nat) (checkPow : Bool) (m : Nat)
    (hm : median_timestamp env I s (from_ - 1) = .ok m)
    (headers : List Header) (st : Header × ProofOfWork × Nat)
    (hfold : headers.foldlM (will_extend_step env I s from_ checkPow) st =
      .error .invalidTimestamp) :
    ∃ h ∈ headers, h.proofOfWork.timestamp < m := by
  induction headers generalizing st with
  | nil => simp [List.foldlM, Res.pure_def] at hfold
  | cons hd tl ih =>
    rw [List.foldlM_cons] at hfold
    rcases Res.bind_eq_error hfold with hstep | ⟨st', _, hfold⟩
    · exact ⟨hd, List.mem_cons_self hd tl,
        will_extend_step_ts_err env I s from_ checkPow m hm _ _ hstep⟩
    · obtain ⟨h, hmem, hts⟩ := ih st' hfold
      exact ⟨h, List.mem_cons_of_mem hd hmem, hts⟩

/-- C9 amended: every candidate header in `will_extend` is checked against
the single median-time-past of the fork point `from - 1` over the
persisted chain — if `will_extend` completes without error no candidate's
timestamp is below that one median, and an `InvalidTimestamp` error means
some candidate's timestamp is below that one median.  Candidates are not
compared against medians involving their own predecessors in the
candidate list. -/
theorem will_extend_mtp_fork_point {σ : Type} (env : Env) (I : KvIface σ)
    (s : σ) (from_ : Nat) (headers : List Header) (checkPow : Bool) (m : Nat)
    (hm : median_timestamp env I s (from_ - 1) = .ok m) :
    (∀ b, will_extend env I s from_ headers checkPow = .ok b →
      ∀ h ∈ headers, ¬h.proofOfWork.timestamp < m) ∧
    (will_extend env I s from_ headers checkPow = .error .invalidTimestamp →
      ∃ h ∈ headers, h.proofOfWork.timestamp < m) := by
  constructor
  · intro b hb
    unfold will_extend at hb
    rcases Res.bind_eq_ok hb with ⟨cp, _, hb⟩
    simp only [Res.throw_def, Res.pure_def, Res.bind_ok, Res.bind_error] at hb
    split at hb
    · simp at hb
    · rcases Res.bind_eq_ok hb with ⟨ht, _, hb⟩
      split at hb
      · simp at hb
      split at hb
      · simp at hb
      · case _ p hkget =>
        rcases Res.bind_eq_ok hb with ⟨lh, _, hb⟩
        rcases Res.bind_eq_ok hb with ⟨anchor, _, hb⟩
        rcases Res.bind_eq_ok hb with ⟨fin, hfold, _⟩
        exact will_extend_fold_ts_ok env I s from_ checkPow m hm headers _ _ hfold
      · simp at hb
  · intro hb
    unfold will_extend at hb
    rcases Res.bind_eq_error hb with hcp | ⟨cp, _, hb⟩
    · rcases get_power_error _ _ _ hcp with h1 | h1 <;> cases h1
    simp only [Res.throw_def, Res.pure_def, Res.bind_ok, Res.bind_error] at hb
    split at hb
    · simp at hb
    · rcases Res.bind_eq_error hb with hht | ⟨ht, _, hb⟩
      · cases get_height_error _ _ _ hht
      split at hb
      · simp at hb
      split at hb
      · simp at hb
      · case _ p hkget =>
        rcases Res.bind_eq_error hb with hlh | ⟨lh, _, hb⟩
        · rcases get_header_error _ _ _ _ hlh with h1 | h1 | h1 <;> cases h1
        rcases Res.bind_eq_error hb with hanc | ⟨anchor, _, hb⟩
        · rcases get_header_error _ _ _ _ hanc with h1 | h1 | h1 <;> cases h1
        rcases Res.bind_eq_error hb with hfold | ⟨fin, _, hb⟩
        · exact will_extend_fold_ts_err env I s from_ checkPow m hm headers _ hfold
        · simp at hb
      · simp at hb

/-- The balance a stored entry contributes to the ledger: account
balances and contract-account balances; every other entry contributes
nothing. -/
def entryBalance : StringKey × Value → Nat
  | (.accountKey _, .vaccount a) => a.balance
  | (.contractAccountKey _, .vcontractAccount ca) => ca.balance
  | _ => 0

/-- The keys that can carry ledger balance. -/
def RelevantKey (k : StringKey) : Prop :=
  (∃ a, k = .accountKey a) ∨ (∃ c, k = .contractAccountKey c)

/-- The total ledger of a store: the sum of all stored account balances
and contract-account balances, plus the Treasury's default balance
`TOTAL_SUPPLY` when no Treasury account is stored (`get_account` reports
exactly this default). -/
def ledgerSum (env : Env) (S : Store) : Nat :=
  (S.map entryBalance).sum +
    (if (alget S (.accountKey .treasury)).isSome then 0 else env.totalSupply)

/-- Keys of an association list are pairwise distinct. -/
def NodupKeys {κ β : Type} (l : List (κ × β)) : Prop :=
  (l.map Prod.fst).Nodup

/-- Every stored contract account carries a zero balance (`apply_tx`
always writes `balance: 0`). -/
def CAInv (S : Store) : Prop :=
  ∀ cid ca, alget S (.contractAccountKey cid) = some (.vcontractAccount ca) →
    ca.balance = 0

/-- Shape of the write ops `apply_tx` emits: only account, contract,
contract-account (with zero balance) and contract-compressed-state
keys. -/
def TxOp : WriteOp → Prop
  | (.accountKey _, _) => True
  | (.contractKey _, _) => True
  | (.contractAccountKey _, v?) =>
    ∀ ca, v? = some (.vcontractAccount ca) → ca.balance = 0
  | (.contractCompressedStateKey _ _, _) => True
  | _ => False

theorem lastTouch_append (l₁ l₂ : List WriteOp) (k : StringKey) :
    lastTouch (l₁ ++ l₂) k = (lastTouch l₂ k).orElse (fun _ => lastTouch l₁ k) := by
  induction l₁ with
  | nil =>
    show lastTouch l₂ k = _
    cases lastTouch l₂ k <;> rfl
  | cons op l ih =>
    show (lastTouch (l ++ l₂) k).orElse _ = _
    rw [ih]
    cases lastTouch l₂ k <;> rfl

theorem lastTouch_mem (l : List WriteOp) (k : StringKey) (v? : Option Value) :
    lastTouch l k = some v? → (k, v?) ∈ l := by
  induction l with
  | nil => intro h; cases h
  | cons op rest ih =>
    intro h
    rcases op with ⟨k0, v0⟩
    rcases hr : lastTouch rest k with _ | r
    · rw [lastTouch, hr] at h
      simp only [Option.orElse] at h
      split at h
      · case _ hk =>
        injection h with hv
        subst hk
        subst hv
        exact List.mem_cons_self _ _
      · cases h
    · rw [lastTouch, hr] at h
      simp only [Option.orElse] at h
      injection h with hv
      exact List.mem_cons_of_mem _ (ih (hr.trans (by rw [hv])))

theorem nodupKeys_alremove {κ β : Type} [DecidableEq κ] (l : List (κ × β))
    (k : κ) (h : NodupKeys l) : NodupKeys (alremove l k) :=
  List.Nodup.sublist (List.Sublist.map Prod.fst (List.filter_sublist l)) h

theorem alremove_keys_ne {κ β : Type} [DecidableEq κ] (l : List (κ × β))
    (k : κ) : ∀ p ∈ alremove l k, ¬(p.1 = k) := by
  intro p hp
  unfold alremove at hp
  have h2 := List.of_mem_filter hp
  simpa using h2

theorem nodupKeys_alinsert {κ β : Type} [DecidableEq κ] (l : List (κ × β))
    (k : κ) (v : β) (h : NodupKeys l) : NodupKeys (alinsert l k v) := by
  have hrem : NodupKeys (alremove l k) := nodupKeys_alremove l k h
  unfold NodupKeys alinsert at *
  rw [List.map_append]
  refine List.Nodup.append hrem (by simp) ?_
  intro a ha hb
  simp only [List.map_cons, List.map_nil, List.mem_singleton] at hb
  obtain ⟨p, hp, hpa⟩ := List.mem_map.mp ha
  exact alremove_keys_ne l k p hp (hpa.trans hb)

theorem nodupKeys_applyOp (s : Store) (op : WriteOp) (h : NodupKeys s) :
    NodupKeys (applyOp s op) := by
  unfold applyOp
  rcases op with ⟨k, _ | v⟩
  · exact nodupKeys_alremove s k h
  · exact nodupKeys_alinsert s k v h

theorem nodupKeys_ramUpdate (s : Store) (ops : List WriteOp) (h : NodupKeys s) :
    NodupKeys (ramUpdate s ops) := by
  induction ops generalizing s with
  | nil => exact h
  | cons op rest ih => exact ih (applyOp s op) (nodupKeys_applyOp s op h)

theorem entryBalance_account (a : Address) (acc : Account) :
    entryBalance (.accountKey a, .vaccount acc) = acc.balance := rfl

theorem entryBalance_cacct (c : ContractId) (ca : ContractAccount) :
    entryBalance (.contractAccountKey c, .vcontractAccount ca) = ca.balance := rfl

theorem ledger_default_some (env : Env) (o : Option Value) (v : Value)
    (h : o = some v) : (if o.isSome then 0 else env.totalSupply) = 0 := by
  subst h
  rfl

theorem ledger_default_none (env : Env) (o : Option Value)
    (h : o = none) :
    (if o.isSome then 0 else env.totalSupply) = env.totalSupply := by
  subst h
  rfl

/-- Boolean test for `RelevantKey`. -/
def relevantKeyB : StringKey → Bool
  | .accountKey _ => true
  | .contractAccountKey _ => true
  | _ => false

theorem relevant_iff (k : StringKey) : RelevantKey k ↔ relevantKeyB k = true := by
  constructor
  · rintro (⟨a, h⟩ | ⟨c, h⟩) <;> subst h <;> rfl
  · intro h
    cases k <;>
      first
        | exact Or.inl ⟨_, rfl⟩
        | exact Or.inr ⟨_, rfl⟩
        | cases h

theorem not_relevant (k : StringKey) (h : relevantKeyB k = false) :
    ¬RelevantKey k := by
  rw [relevant_iff, h]
  simp

theorem relevant_ne (k0 k : StringKey) (h0 : relevantKeyB k0 = false)
    (hrel : RelevantKey k) : ¬(k0 = k) := by
  intro he
  rw [← he] at hrel
  exact absurd hrel (not_relevant k0 h0)

theorem entryBalance_not_relevant (k : StringKey) (v : Value)
    (h : ¬RelevantKey k) : entryBalance (k, v) = 0 := by
  cases k with
  | accountKey a => exact absurd (Or.inl ⟨a, rfl⟩) h
  | contractAccountKey c => exact absurd (Or.inr ⟨c, rfl⟩) h
  | height => cases v <;> rfl
  | outdated => cases v <;> rfl
  | blockKey n => cases v <;> rfl
  | headerKey n => cases v <;> rfl
  | merkleKey n => cases v <;> rfl
  | powerKey n => cases v <;> rfl
  | rollbackKey n => cases v <;> rfl
  | contractUpdatesKey n => cases v <;> rfl
  | contractKey c => cases v <;> rfl
  | contractStateKey c => cases v <;> rfl
  | contractCompressedStateKey c n => cases v <;> rfl

theorem mirrorGet_nil (base : Store) (k : StringKey) :
    mirrorGet base ([] : Overlay) k = ramGet base k := rfl

theorem mirrorGet_alinsert (base : Store) (ov : Overlay) (k k' : StringKey)
    (v? : Option Value) :
    mirrorGet base (alinsert ov k v?) k' =
      if k' = k then v? else mirrorGet base ov k' := by
  unfold mirrorGet
  rw [alget_insert]
  by_cases h : k' = k
  · simp [h]
  · simp [h]

theorem mirrorGet_update (base : Store) (ops : List WriteOp) (ov : Overlay)
    (k : StringKey) :
    mirrorGet base ((mirrorKv base).kupdate ov ops) k =
      (lastTouch ops k).getD (mirrorGet base ov k) := by
  induction ops generalizing ov with
  | nil => rfl
  | cons op rest ih =>
    show mirrorGet base ((mirrorKv base).kupdate (alinsert ov op.1 op.2) rest) k = _
    rw [ih, lastTouch]
    cases hlt : lastTouch rest k with
    | some r => simp [Option.orElse, hlt]
    | none =>
      simp only [hlt, Option.orElse, Option.getD_none]
      rw [mirrorGet_alinsert]
      by_cases hop : op.1 = k
      · rw [if_pos hop.symm, if_pos hop, Option.getD_some]
      · rw [if_neg (fun hh : k = op.1 => hop hh.symm), if_neg hop, Option.getD_none]

theorem mirror_ram_update_agree (base T : Store) (ov : Overlay)
    (hpt : ∀ k, mirrorGet base ov k = ramGet T k) (ops : List WriteOp)
    (k : StringKey) :
    mirrorGet base ((mirrorKv base).kupdate ov ops) k =
      ramGet (ramUpdate T ops) k := by
  rw [mirrorGet_update, ramGet_ramUpdate, hpt]

theorem mem_alremove {κ β : Type} [DecidableEq κ] (l : List (κ × β)) (k : κ)
    (p : κ × β) (hp : p ∈ alremove l k) : p ∈ l :=
  List.mem_of_mem_filter hp

theorem mem_alinsert {κ β : Type} [DecidableEq κ] (l : List (κ × β)) (k : κ)
    (v : β) (p : κ × β) (hp : p ∈ alinsert l k v) : p ∈ l ∨ p = (k, v) := by
  unfold alinsert at hp
  rcases List.mem_append.mp hp with h | h
  · exact Or.inl (mem_alremove l k p h)
  · exact Or.inr (List.mem_singleton.mp h)

theorem overlay_shape_update (base : Store) (P : WriteOp → Prop)
    (ops : List WriteOp) (ov : Overlay) (hov : ∀ p ∈ ov, P p)
    (hops : ∀ p ∈ ops, P p) :
    ∀ p ∈ (mirrorKv base).kupdate ov ops, P p := by
  induction ops generalizing ov with
  | nil => exact hov
  | cons op rest ih =>
    show ∀ p ∈ (mirrorKv base).kupdate (alinsert ov op.1 op.2) rest, P p
    refine ih (alinsert ov op.1 op.2) ?_ (fun p hp => hops p (List.mem_cons_of_mem _ hp))
    intro p hp
    rcases mem_alinsert ov op.1 op.2 p hp with h | h
    · exact hov p h
    · rw [h]
      exact hops op (List.mem_cons_self _ _)

theorem nodupKeys_mirror_update (base : Store) (ops : List WriteOp) (ov : Overlay)
    (h : NodupKeys ov) : NodupKeys ((mirrorKv base).kupdate ov ops) := by
  induction ops generalizing ov with
  | nil => exact h
  | cons op rest ih =>
    exact ih (alinsert ov op.1 op.2) (nodupKeys_alinsert ov op.1 op.2 h)

theorem alget_eq_none_of_not_mem {κ β : Type} [DecidableEq κ] (l : List (κ × β))
    (k : κ) (h : ∀ p ∈ l, ¬(p.1 = k)) : alget l k = none := by
  induction l with
  | nil => rfl
  | cons p rest ih =>
    rw [alget_cons, if_neg (h p (List.mem_cons_self _ _))]
    exact ih (fun q hq => h q (List.mem_cons_of_mem _ hq))

theorem lastTouch_eq_none (l : List WriteOp) (k : StringKey)
    (h : ∀ p ∈ l, ¬(p.1 = k)) : lastTouch l k = none := by
  induction l with
  | nil => rfl
  | cons op rest ih =>
    rw [lastTouch, ih (fun q hq => h q (List.mem_cons_of_mem _ hq))]
    simp [Option.orElse, if_neg (h op (List.mem_cons_self _ _))]

theorem alget_of_mem_nodup {κ β : Type} [DecidableEq κ] (l : List (κ × β))
    (h : NodupKeys l) (p : κ × β) (hp : p ∈ l) : alget l p.1 = some p.2 := by
  induction l with
  | nil => cases hp
  | cons q rest ih =>
    unfold NodupKeys at h
    rw [List.map_cons] at h
    obtain ⟨hni, hnd⟩ := List.nodup_cons.mp h
    rcases List.mem_cons.mp hp with h1 | h1
    · subst h1
      rw [alget_cons, if_pos rfl]
    · rw [alget_cons]
      by_cases hq : q.1 = p.1
      · exact absurd (by rw [hq]; exact List.mem_map.mpr ⟨p, h1, rfl⟩) hni
      · rw [if_neg hq]
        exact ih hnd h1

theorem lastTouch_eq_alget_of_nodup (l : List WriteOp) (h : NodupKeys l)
    (k : StringKey) : lastTouch l k = alget l k := by
  induction l with
  | nil => rfl
  | cons op rest ih =>
    unfold NodupKeys at h
    rw [List.map_cons] at h
    obtain ⟨hni, hnd⟩ := List.nodup_cons.mp h
    rw [lastTouch, ih hnd, alget_cons]
    by_cases hk : op.1 = k
    · have hrest : alget rest k = none := alget_eq_none_of_not_mem rest k (by
        intro q hq hqk
        apply hni
        rw [hk, ← hqk]
        exact List.mem_map.mpr ⟨q, hq, rfl⟩)
      rw [hrest, if_pos hk]
      rfl
    · rw [if_neg hk]
      rw [if_neg hk]
      cases alget rest k <;> rfl

theorem mirrorGet_eq_ramGet_update (base : Store) (ov : Overlay)
    (hnd : NodupKeys ov) (k : StringKey) :
    mirrorGet base ov k = ramGet (ramUpdate base (toOps ov)) k := by
  rw [ramGet_ramUpdate]
  show mirrorGet base ov k = (lastTouch ov k).getD (ramGet base k)
  rw [lastTouch_eq_alget_of_nodup ov hnd k]
  unfold mirrorGet
  cases alget ov k with
  | some v? => rfl
  | none => rfl

theorem alremove_eq_self {κ β : Type} [DecidableEq κ] (l : List (κ × β)) (k : κ)
    (h : ∀ p ∈ l, ¬(p.1 = k)) : alremove l k = l := by
  unfold alremove
  apply List.filter_eq_self.mpr
  intro p hp
  simpa using h p hp

theorem sum_map_alremove (T : Store) (k : StringKey) (hnd : NodupKeys T) :
    ((alremove T k).map entryBalance).sum +
      (match alget T k with
        | some v => entryBalance (k, v)
        | none => 0) = (T.map entryBalance).sum := by
  induction T with
  | nil => rfl
  | cons p rest ih =>
    unfold NodupKeys at hnd
    rw [List.map_cons] at hnd
    obtain ⟨hni, hnd'⟩ := List.nodup_cons.mp hnd
    rw [alremove_cons, alget_cons]
    by_cases hp : p.1 = k
    · rw [if_pos hp, if_pos hp]
      have hrm : alremove rest k = rest := alremove_eq_self rest k (by
        intro q hq hqk
        apply hni
        rw [hp, ← hqk]
        exact List.mem_map.mpr ⟨q, hq, rfl⟩)
      rw [hrm, List.map_cons, List.sum_cons]
      have he : entryBalance (k, p.2) = entryBalance p := by rw [← hp]
      show (List.map entryBalance rest).sum + entryBalance (k, p.2) =
        entryBalance p + (List.map entryBalance rest).sum
      rw [he]
      omega
    · rw [if_neg hp, if_neg hp, List.map_cons, List.sum_cons, List.map_cons,
        List.sum_cons]
      have h2 := ih hnd'
      omega

theorem sum_map_alremove_some (T : Store) (k : StringKey) (v : Value)
    (hnd : NodupKeys T) (hg : alget T k = some v) :
    ((alremove T k).map entryBalance).sum + entryBalance (k, v) =
      (T.map entryBalance).sum := by
  have h := sum_map_alremove T k hnd
  rw [hg] at h
  exact h

theorem sum_map_alremove_none (T : Store) (k : StringKey)
    (hnd : NodupKeys T) (hg : alget T k = none) :
    ((alremove T k).map entryBalance).sum = (T.map entryBalance).sum := by
  have h := sum_map_alremove T k hnd
  rw [hg] at h
  have h2 : ((alremove T k).map entryBalance).sum + 0 =
      (T.map entryBalance).sum := h
  omega

theorem sum_map_alinsert (T : Store) (k : StringKey) (v : Value) :
    ((alinsert T k v).map entryBalance).sum =
      ((alremove T k).map entryBalance).sum + entryBalance (k, v) := by
  unfold alinsert
  rw [List.map_append, List.sum_append]
  simp

theorem ledger_insert_account (env : Env) (T : Store) (hnd : NodupKeys T)
    (addr : Address) (acc : Account)
    (hacc : get_account env ramKv T addr = Res.ok acc) (newAcc : Account) :
    ledgerSum env (alinsert T (.accountKey addr) (.vaccount newAcc)) + acc.balance =
      ledgerSum env T + newAcc.balance := by
  have hkg : ramKv.kget T (.accountKey addr) = alget T (.accountKey addr) := rfl
  unfold get_account at hacc
  rw [hkg] at hacc
  unfold ledgerSum
  rw [sum_map_alinsert, alget_insert, entryBalance_account]
  cases hga : alget T (.accountKey addr) with
  | some v =>
    rw [hga] at hacc
    cases v with
    | vaccount a =>
      injection hacc with he
      subst he
      have hsum := sum_map_alremove_some T (.accountKey addr) (.vaccount a) hnd hga
      rw [entryBalance_account] at hsum
      by_cases htr : (StringKey.accountKey .treasury) = (StringKey.accountKey addr)
      · rw [if_pos htr, ledger_default_some env _ (.vaccount newAcc) rfl, htr, hga,
          ledger_default_some env _ (.vaccount a) rfl]
        omega
      · rw [if_neg htr]
        omega
    | vnat n => injection hacc
    | vblock b => injection hacc
    | vheader hh => injection hacc
    | vops l => injection hacc
    | vmerkle m => injection hacc
    | vcontract c => injection hacc
    | vcontractAccount ca => injection hacc
    | vcompressed cs => injection hacc
    | vstateMap m => injection hacc
    | vupdatesMap m => injection hacc
    | vzkState st => injection hacc
  | none =>
    rw [hga] at hacc
    injection hacc with he
    have hsum := sum_map_alremove_none T (.accountKey addr) hnd hga
    by_cases haddr : addr = .treasury
    · subst haddr
      rw [if_pos rfl, ledger_default_some env _ (.vaccount newAcc) rfl, hga,
        ledger_default_none env _ rfl]
      rw [if_pos rfl] at he
      rw [← he]
      simp only [Account.balance_mk]
      omega
    · have htr : ¬((StringKey.accountKey .treasury) = (StringKey.accountKey addr)) := by
        intro h
        injection h with h2
        exact haddr h2.symm
      rw [if_neg htr]
      rw [if_neg haddr] at he
      rw [← he]
      simp only [Account.balance_mk]
      omega

theorem ledger_insert_zero_entry (env : Env) (T : Store) (hnd : NodupKeys T)
    (k : StringKey) (v : Value) (hkt : ¬(k = .accountKey .treasury))
    (hold : ∀ w, alget T k = some w → entryBalance (k, w) = 0)
    (hnew : entryBalance (k, v) = 0) :
    ledgerSum env (alinsert T k v) = ledgerSum env T := by
  unfold ledgerSum
  rw [sum_map_alinsert, alget_insert, hnew,
    if_neg (fun h : (StringKey.accountKey .treasury) = k => hkt h.symm)]
  cases hga : alget T k with
  | none =>
    have hsum := sum_map_alremove_none T k hnd hga
    omega
  | some w =>
    have hsum := sum_map_alremove_some T k w hnd hga
    rw [hold w hga] at hsum
    omega

theorem get_account_alinsert_ne (env : Env) (T : Store) (k : StringKey)
    (v : Value) (addr : Address) (hk : ¬(StringKey.accountKey addr = k)) :
    get_account env ramKv (alinsert T k v) addr = get_account env ramKv T addr := by
  unfold get_account
  have h1 : ramKv.kget (alinsert T k v) (.accountKey addr) =
      alget (alinsert T k v) (.accountKey addr) := rfl
  have h2 : ramKv.kget T (.accountKey addr) = alget T (.accountKey addr) := rfl
  rw [h1, h2, alget_insert, if_neg hk]

theorem cainv_alinsert_other (T : Store) (k : StringKey) (v : Value)
    (hk : ∀ cid : ContractId, ¬(StringKey.contractAccountKey cid = k))
    (h : CAInv T) : CAInv (alinsert T k v) := by
  intro cid ca hca
  rw [alget_insert, if_neg (hk cid)] at hca
  exact h cid ca hca

theorem cainv_alinsert_zero (T : Store) (cid0 : ContractId)
    (ca0 : ContractAccount) (hz : ca0.balance = 0) (h : CAInv T) :
    CAInv (alinsert T (.contractAccountKey cid0) (.vcontractAccount ca0)) := by
  intro cid ca hca
  rw [alget_insert] at hca
  by_cases hc : (StringKey.contractAccountKey cid) = (StringKey.contractAccountKey cid0)
  · rw [if_pos hc] at hca
    injection hca with he
    injection he with he2
    rw [← he2]
    exact hz
  · rw [if_neg hc] at hca
    exact h cid ca hca

theorem ramUpdate_append (S : Store) (l₁ l₂ : List WriteOp) :
    ramUpdate S (l₁ ++ l₂) = ramUpdate (ramUpdate S l₁) l₂ :=
  List.foldl_append _ _ _ _

theorem ledgerSum_ext (env : Env) (T1 : Store) : ∀ T2 : Store,
    NodupKeys T1 → NodupKeys T2 →
    (∀ k, RelevantKey k → ramGet T1 k = ramGet T2 k) →
    ledgerSum env T1 = ledgerSum env T2 := by
  induction T1 with
  | nil =>
    intro T2 _ hnd2 hpt
    have htr : alget T2 (.accountKey .treasury) = none :=
      (hpt (.accountKey .treasury) (Or.inl ⟨_, rfl⟩)).symm
    have hz : ∀ p ∈ T2, entryBalance p = 0 := by
      intro p hp
      by_cases hrel : RelevantKey p.1
      · have hm : ramGet T2 p.1 = some p.2 := alget_of_mem_nodup T2 hnd2 p hp
        rw [← hpt p.1 hrel] at hm
        exact Option.noConfusion hm
      · rcases p with ⟨k, v⟩
        exact entryBalance_not_relevant k v hrel
    have h2 : (T2.map entryBalance).sum = 0 := List.sum_eq_zero (by
      intro x hx
      obtain ⟨p, hp, hpx⟩ := List.mem_map.mp hx
      rw [← hpx]
      exact hz p hp)
    unfold ledgerSum
    rw [htr, h2]
    rfl
  | cons p T1' ih =>
    intro T2 hnd1 hnd2 hpt
    rcases p with ⟨k, v⟩
    have hnd1c := hnd1
    unfold NodupKeys at hnd1c
    rw [List.map_cons] at hnd1c
    obtain ⟨hni, hnd1'⟩ := List.nodup_cons.mp hnd1c
    have hget1 : alget ((k, v) :: T1') k = some v := by rw [alget_cons, if_pos rfl]
    have hT1'none : alget T1' k = none := alget_eq_none_of_not_mem T1' k (by
      intro q hq hqk
      apply hni
      rw [← hqk]
      exact List.mem_map.mpr ⟨q, hq, rfl⟩)
    by_cases hrel : RelevantKey k
    · have hget2 : ramGet T2 k = some v := by
        rw [← hpt k hrel]
        exact hget1
      have hnd2' : NodupKeys (alremove T2 k) := nodupKeys_alremove T2 k hnd2
      have hpt' : ∀ k', RelevantKey k' →
          ramGet T1' k' = ramGet (alremove T2 k) k' := by
        intro k' hrel'
        by_cases hkk : k' = k
        · subst hkk
          have hn2 : alget (alremove T2 k') k' = none := by
            rw [alget_remove, if_pos rfl]
          exact hT1'none.trans hn2.symm
        · have e1 : ramGet T1' k' = ramGet ((k, v) :: T1') k' := by
            show alget T1' k' = alget ((k, v) :: T1') k'
            rw [alget_cons, if_neg (fun h => hkk h.symm)]
          have e2 : ramGet (alremove T2 k) k' = ramGet T2 k' := by
            show alget (alremove T2 k) k' = alget T2 k'
            rw [alget_remove, if_neg hkk]
          rw [e1, e2]
          exact hpt k' hrel'
      have hIH := ih (alremove T2 k) hnd1' hnd2' hpt'
      have hsum2 := sum_map_alremove_some T2 k v hnd2 hget2
      by_cases htr : k = .accountKey .treasury
      · subst htr
        have hD2' : alget (alremove T2 (.accountKey .treasury))
            (.accountKey .treasury) = none := by
          rw [alget_remove, if_pos rfl]
        unfold ledgerSum at hIH ⊢
        rw [hT1'none, hD2'] at hIH
        rw [List.map_cons, List.sum_cons, hget1]
        have hg2 : alget T2 (.accountKey .treasury) = some v := hget2
        rw [hg2]
        omega
      · have hD1 : alget ((k, v) :: T1') (.accountKey .treasury) =
            alget T1' (.accountKey .treasury) := by
          rw [alget_cons, if_neg htr]
        have hD2 : alget (alremove T2 k) (.accountKey .treasury) =
            alget T2 (.accountKey .treasury) := by
          rw [alget_remove, if_neg (fun h : (StringKey.accountKey .treasury) = k =>
            htr h.symm)]
        unfold ledgerSum at hIH ⊢
        rw [hD2] at hIH
        rw [List.map_cons, List.sum_cons, hD1]
        omega
    · have hpt' : ∀ k', RelevantKey k' → ramGet T1' k' = ramGet T2 k' := by
        intro k' hrel'
        have hkk : ¬(k = k') := fun h => hrel (h ▸ hrel')
        have e1 : ramGet T1' k' = ramGet ((k, v) :: T1') k' := by
          show alget T1' k' = alget ((k, v) :: T1') k'
          rw [alget_cons, if_neg hkk]
        rw [e1]
        exact hpt k' hrel'
      have hIH := ih T2 hnd1' hnd2 hpt'
      have hktr : ¬(k = .accountKey .treasury) :=
        fun h => hrel (h ▸ Or.inl ⟨_, rfl⟩)
      have hD1 : alget ((k, v) :: T1') (.accountKey .treasury) =
          alget T1' (.accountKey .treasury) := by
        rw [alget_cons, if_neg hktr]
      have hz : entryBalance (k, v) = 0 := entryBalance_not_relevant k v hrel
      unfold ledgerSum at hIH ⊢
      rw [List.map_cons, List.sum_cons, hD1, hz]
      omega

theorem get_account_mirror_eq (env : Env) (S T : Store) (ov : Overlay)
    (hpt : ∀ k, mirrorGet S ov k = ramGet T k) :
    ∀ addr, get_account env (mirrorKv S) ov addr = get_account env ramKv T addr := by
  intro addr
  unfold get_account
  have h : (mirrorKv S).kget ov (.accountKey addr) =
      ramKv.kget T (.accountKey addr) := hpt (.accountKey addr)
  rw [h]

theorem get_contract_mirror_eq (S T : Store) (ov : Overlay)
    (hpt : ∀ k, mirrorGet S ov k = ramGet T k) :
    ∀ cid, get_contract (mirrorKv S) ov cid = get_contract ramKv T cid := by
  intro cid
  unfold get_contract
  have h : (mirrorKv S).kget ov (.contractKey cid) =
      ramKv.kget T (.contractKey cid) := hpt (.contractKey cid)
  rw [h]

theorem get_contract_account_mirror_eq (S T : Store) (ov : Overlay)
    (hpt : ∀ k, mirrorGet S ov k = ramGet T k) :
    ∀ cid, get_contract_account (mirrorKv S) ov cid =
      get_contract_account ramKv T cid := by
  intro cid
  unfold get_contract_account
  have h : (mirrorKv S).kget ov (.contractAccountKey cid) =
      ramKv.kget T (.contractAccountKey cid) := hpt (.contractAccountKey cid)
  rw [h]

/-- `apply_tx` run on the RAM-mirror fork is simulated, op for op, by
`apply_tx` on any store that agrees pointwise with the fork view: the
same write ops are emitted (all of `TxOp` shape) and the same side
effect is produced. -/
theorem apply_tx_mirror_sim (env : Env) (S T : Store) (ov : Overlay)
    (tx : Transaction) (aT : Bool)
    (hpt : ∀ k, mirrorGet S ov k = ramGet T k) (ov2 : Overlay)
    (se : TxSideEffect)
    (h : apply_tx env (mirrorKv S) ov tx aT = .ok (ov2, se)) :
    ∃ ops : List WriteOp, ov2 = (mirrorKv S).kupdate ov ops ∧
      (∀ p ∈ ops, TxOp p) ∧
      apply_tx env ramKv T tx aT = .ok (ramUpdate T ops, se) := by
  unfold apply_tx at h
  simp only [get_account_mirror_eq env S T ov hpt,
    get_contract_mirror_eq S T ov hpt,
    get_contract_account_mirror_eq S T ov hpt] at h
  cases hacc : get_account env ramKv T tx.src with
  | panic => rw [hacc] at h; exact absurd h (by simp [Res.bind_panic])
  | error e => rw [hacc] at h; exact absurd h (by simp [Res.bind_error])
  | ok acc =>
  rw [hacc] at h
  simp only [Res.bind_ok, Res.pure_def, Res.bind_error, Res.throw_def,
    Account.balance_mk, Account.nonce_mk] at h
  by_cases ht : tx.src = .treasury ∧ ¬aT = true
  · rw [if_pos ht] at h; exact absurd h (by simp)
  rw [if_neg ht] at h
  by_cases hsg : ¬verify_signature env tx = true
  · rw [if_pos hsg] at h; exact absurd h (by simp)
  rw [if_neg hsg] at h
  by_cases hnc : tx.nonce ≠ acc.nonce + 1
  · rw [if_pos hnc] at h; exact absurd h (by simp)
  rw [if_neg hnc] at h
  by_cases hfe : acc.balance < tx.fee
  · rw [if_pos hfe] at h; exact absurd h (by simp)
  rw [if_neg hfe] at h
  cases hdata : tx.data with
  | regularSend dst amount =>
    rw [hdata] at h
    simp only [Res.bind_ok, Res.pure_def, Res.bind_error, Res.throw_def,
      Account.balance_mk, Account.nonce_mk] at h
    by_cases hamt : acc.balance - tx.fee < amount
    · rw [if_pos hamt] at h; exact absurd h (by simp)
    rw [if_neg hamt] at h
    by_cases hdn : dst ≠ tx.src
    · rw [if_pos hdn] at h
      rcases Res.bind_eq_ok h with ⟨acc_dst, hdst, h⟩
      simp only [Res.bind_ok, Res.pure_def, Res.ok.injEq, Prod.mk.injEq] at h
      obtain ⟨hov, hse⟩ := h
      subst hov
      subst hse
      refine ⟨_, rfl, ?_, ?_⟩
      · intro p hp
        simp only [List.mem_append, List.mem_cons, List.not_mem_nil,
          or_false] at hp
        rcases hp with rfl | rfl
        · exact trivial
        · exact trivial
      · simp only [apply_tx, hacc, Res.bind_ok, Res.pure_def, Res.bind_error,
          Res.throw_def, Account.balance_mk, Account.nonce_mk]
        rw [if_neg ht, if_neg hsg, if_neg hnc, if_neg hfe, hdata]
        simp only [Res.bind_ok, Res.pure_def, Res.bind_error, Res.throw_def,
          Account.balance_mk, Account.nonce_mk]
        rw [if_neg hamt, if_pos hdn, hdst]
        rfl
    · rw [if_neg hdn] at h
      simp only [Res.bind_ok, Res.pure_def, Res.ok.injEq, Prod.mk.injEq] at h
      obtain ⟨hov, hse⟩ := h
      subst hov
      subst hse
      refine ⟨_, rfl, ?_, ?_⟩
      · intro p hp
        simp only [List.nil_append, List.mem_cons, List.not_mem_nil,
          or_false] at hp
        rcases hp with rfl
        exact trivial
      · simp only [apply_tx, hacc, Res.bind_ok, Res.pure_def, Res.bind_error,
          Res.throw_def, Account.balance_mk, Account.nonce_mk]
        rw [if_neg ht, if_neg hsg, if_neg hnc, if_neg hfe, hdata]
        simp only [Res.bind_ok, Res.pure_def, Res.bind_error, Res.throw_def,
          Account.balance_mk, Account.nonce_mk]
        rw [if_neg hamt, if_neg hdn]
        rfl
  | createContract contract =>
    rw [hdata] at h
    simp only [Res.bind_ok, Res.pure_def, Res.bind_error, Res.throw_def,
      Res.ok.injEq, Prod.mk.injEq] at h
    obtain ⟨hov, hse⟩ := h
    subst hov
    subst hse
    refine ⟨_, rfl, ?_, ?_⟩
    · intro p hp
      simp only [List.mem_append, List.mem_cons, List.not_mem_nil,
        or_false] at hp
      rcases hp with (rfl | rfl | rfl) | rfl
      · exact trivial
      · intro ca hca
        injection hca with h1
        injection h1 with h2
        rw [← h2]
      · exact trivial
      · exact trivial
    · simp only [apply_tx, hacc, Res.bind_ok, Res.pure_def, Res.bind_error,
        Res.throw_def, Account.balance_mk, Account.nonce_mk]
      rw [if_neg ht, if_neg hsg, if_neg hnc, if_neg hfe, hdata]
      simp only [Res.bind_ok, Res.pure_def]
      rfl
  | depositWithdraw cid amount next_state proof =>
    rw [hdata] at h
    simp only [Res.bind_ok, Res.pure_def, Res.bind_error, Res.throw_def] at h
    rcases Res.bind_eq_ok h with ⟨contract, hct, h⟩
    rcases Res.bind_eq_ok h with ⟨prev_account, hpa, h⟩
    rcases Res.bind_eq_ok h with ⟨okp, hok, h⟩
    by_cases hko : ¬okp = true
    · rw [if_pos hko] at h; exact absurd h (by simp)
    rw [if_neg hko] at h
    simp only [Res.bind_ok, Res.pure_def, Res.ok.injEq, Prod.mk.injEq] at h
    obtain ⟨hov, hse⟩ := h
    subst hov
    subst hse
    refine ⟨_, rfl, ?_, ?_⟩
    · intro p hp
      simp only [List.mem_append, List.mem_cons, List.not_mem_nil,
        or_false] at hp
      rcases hp with (rfl | rfl) | rfl
      · intro ca hca
        injection hca with h1
        injection h1 with h2
        rw [← h2]
      · exact trivial
      · exact trivial
    · simp only [apply_tx, hacc, Res.bind_ok, Res.pure_def, Res.bind_error,
        Res.throw_def, Account.balance_mk, Account.nonce_mk]
      rw [if_neg ht, if_neg hsg, if_neg hnc, if_neg hfe, hdata]
      simp only [Res.bind_ok, Res.pure_def, Res.bind_error, Res.throw_def]
      rw [hct]
      simp only [Res.bind_ok]
      rw [hpa]
      simp only [Res.bind_ok]
      rw [hok]
      simp only [Res.bind_ok]
      rw [if_neg hko]
      rfl
  | update cid function_id next_state proof =>
    rw [hdata] at h
    simp only [Res.bind_ok, Res.pure_def, Res.bind_error, Res.throw_def] at h
    rcases Res.bind_eq_ok h with ⟨contract, hct, h⟩
    rcases Res.bind_eq_ok h with ⟨prev_account, hpa, h⟩
    cases hvk : contract.update.get? function_id with
    | none => rw [hvk] at h; exact absurd h (by simp)
    | some vk =>
    rw [hvk] at h
    simp only [Res.bind_ok, Res.pure_def, Res.bind_error, Res.throw_def] at h
    rcases Res.bind_eq_ok h with ⟨okp, hok, h⟩
    by_cases hko : ¬okp = true
    · rw [if_pos hko] at h; exact absurd h (by simp)
    rw [if_neg hko] at h
    simp only [Res.bind_ok, Res.pure_def, Res.ok.injEq, Prod.mk.injEq] at h
    obtain ⟨hov, hse⟩ := h
    subst hov
    subst hse
    refine ⟨_, rfl, ?_, ?_⟩
    · intro p hp
      simp only [List.mem_append, List.mem_cons, List.not_mem_nil,
        or_false] at hp
      rcases hp with (rfl | rfl) | rfl
      · intro ca hca
        injection hca with h1
        injection h1 with h2
        rw [← h2]
      · exact trivial
      · exact trivial
    · simp only [apply_tx, hacc, Res.bind_ok, Res.pure_def, Res.bind_error,
        Res.throw_def, Account.balance_mk, Account.nonce_mk]
      rw [if_neg ht, if_neg hsg, if_neg hnc, if_neg hfe, hdata]
      simp only [Res.bind_ok, Res.pure_def, Res.bind_error, Res.throw_def]
      rw [hct]
      simp only [Res.bind_ok]
      rw [hpa]
      simp only [Res.bind_ok]
      rw [hvk]
      simp only [Res.bind_ok, Res.pure_def, Res.bind_error, Res.throw_def]
      rw [hok]
      simp only [Res.bind_ok]
      rw [if_neg hko]
      rfl

theorem ramKupdate_one (T : Store) (k : StringKey) (v : Value) :
    ramKv.kupdate T ([] ++ [(k, some v)]) = alinsert T k v := rfl

theorem ramKupdate_two (T : Store) (k1 k2 : StringKey) (v1 v2 : Value) :
    ramKv.kupdate T ([(k1, some v1)] ++ [(k2, some v2)]) =
      alinsert (alinsert T k1 v1) k2 v2 := rfl

theorem ramKupdate_three (T : Store) (k1 k2 k3 : StringKey) (v1 v2 v3 : Value) :
    ramKv.kupdate T ([(k1, some v1), (k2, some v2)] ++ [(k3, some v3)]) =
      alinsert (alinsert (alinsert T k1 v1) k2 v2) k3 v3 := rfl

theorem ramKupdate_four (T : Store) (k1 k2 k3 k4 : StringKey)
    (v1 v2 v3 v4 : Value) :
    ramKv.kupdate T
        ([(k1, some v1), (k2, some v2), (k3, some v3)] ++ [(k4, some v4)]) =
      alinsert (alinsert (alinsert (alinsert T k1 v1) k2 v2) k3 v3) k4 v4 := rfl

theorem cainv_hold (T : Store) (hca : CAInv T) (cid : ContractId) :
    ∀ w, alget T (.contractAccountKey cid) = some w →
      entryBalance (.contractAccountKey cid, w) = 0 := by
  intro w hw
  cases w <;> first | rfl | exact hca _ _ hw

theorem get_account_alinsert_ck (env : Env) (T : Store) (c : ContractId)
    (v : Value) (addr : Address) :
    get_account env ramKv (alinsert T (.contractKey c) v) addr =
      get_account env ramKv T addr :=
  get_account_alinsert_ne env T _ v addr (fun he => StringKey.noConfusion he)

theorem get_account_alinsert_cak (env : Env) (T : Store) (c : ContractId)
    (v : Value) (addr : Address) :
    get_account env ramKv (alinsert T (.contractAccountKey c) v) addr =
      get_account env ramKv T addr :=
  get_account_alinsert_ne env T _ v addr (fun he => StringKey.noConfusion he)

theorem get_account_alinsert_ccsk (env : Env) (T : Store) (c : ContractId)
    (n : Nat) (v : Value) (addr : Address) :
    get_account env ramKv (alinsert T (.contractCompressedStateKey c n) v) addr =
      get_account env ramKv T addr :=
  get_account_alinsert_ne env T _ v addr (fun he => StringKey.noConfusion he)

/-- Ledger effect of one `apply_tx` on the RAM store: a successful
application burns exactly the fee — the total of account and
contract-account balances (with the Treasury default) drops by `tx.fee`
and by nothing else — while preserving key uniqueness and the zero-balance
contract-account invariant. -/
theorem apply_tx_ledger (env : Env) (T : Store) (tx : Transaction) (aT : Bool)
    (hnd : NodupKeys T) (hca : CAInv T) (T2 : Store) (se : TxSideEffect)
    (h : apply_tx env ramKv T tx aT = .ok (T2, se)) :
    ledgerSum env T2 + tx.fee = ledgerSum env T ∧ NodupKeys T2 ∧ CAInv T2 := by
  unfold apply_tx at h
  cases hacc : get_account env ramKv T tx.src with
  | panic => rw [hacc] at h; exact absurd h (by simp [Res.bind_panic])
  | error e => rw [hacc] at h; exact absurd h (by simp [Res.bind_error])
  | ok acc =>
  rw [hacc] at h
  simp only [Res.bind_ok, Res.pure_def, Res.bind_error, Res.throw_def,
    Account.balance_mk, Account.nonce_mk] at h
  by_cases ht : tx.src = .treasury ∧ ¬aT = true
  · rw [if_pos ht] at h; exact absurd h (by simp)
  rw [if_neg ht] at h
  by_cases hsg : ¬verify_signature env tx = true
  · rw [if_pos hsg] at h; exact absurd h (by simp)
  rw [if_neg hsg] at h
  by_cases hnc : tx.nonce ≠ acc.nonce + 1
  · rw [if_pos hnc] at h; exact absurd h (by simp)
  rw [if_neg hnc] at h
  by_cases hfe : acc.balance < tx.fee
  · rw [if_pos hfe] at h; exact absurd h (by simp)
  rw [if_neg hfe] at h
  cases hdata : tx.data with
  | regularSend dst amount =>
    rw [hdata] at h
    simp only [Res.bind_ok, Res.pure_def, Res.bind_error, Res.throw_def,
      Account.balance_mk, Account.nonce_mk] at h
    by_cases hamt : acc.balance - tx.fee < amount
    · rw [if_pos hamt] at h; exact absurd h (by simp)
    rw [if_neg hamt] at h
    by_cases hdn : dst ≠ tx.src
    · rw [if_pos hdn] at h
      rcases Res.bind_eq_ok h with ⟨acc_dst, hdst, h⟩
      simp only [Res.bind_ok, Res.pure_def, Res.ok.injEq, Prod.mk.injEq] at h
      obtain ⟨hT2, hse⟩ := h
      subst hT2
      rw [ramKupdate_two]
      have hne : ¬(StringKey.accountKey tx.src = StringKey.accountKey dst) := by
        intro he
        injection he with h2
        exact hdn h2.symm
      have hnd1 := nodupKeys_alinsert T (.accountKey dst)
        (.vaccount ⟨acc_dst.balance + amount, acc_dst.nonce⟩) hnd
      have h1 := ledger_insert_account env T hnd dst acc_dst hdst
        ⟨acc_dst.balance + amount, acc_dst.nonce⟩
      have h2 := ledger_insert_account env _ hnd1 tx.src acc
        (by rw [get_account_alinsert_ne env T _ _ tx.src hne]; exact hacc)
        ⟨acc.balance - tx.fee - amount, acc.nonce + 1⟩
      refine ⟨?_, nodupKeys_alinsert _ _ _ hnd1, ?_⟩
      · simp only [Account.balance_mk] at h1 h2
        omega
      · exact cainv_alinsert_other _ _ _ (fun cid he => StringKey.noConfusion he)
          (cainv_alinsert_other _ _ _ (fun cid he => StringKey.noConfusion he) hca)
    · rw [if_neg hdn] at h
      simp only [Res.bind_ok, Res.pure_def, Res.ok.injEq, Prod.mk.injEq] at h
      obtain ⟨hT2, hse⟩ := h
      subst hT2
      rw [ramKupdate_one]
      have h1 := ledger_insert_account env T hnd tx.src acc hacc
        ⟨acc.balance - tx.fee, acc.nonce + 1⟩
      refine ⟨?_, nodupKeys_alinsert _ _ _ hnd, ?_⟩
      · simp only [Account.balance_mk] at h1
        omega
      · exact cainv_alinsert_other _ _ _ (fun cid he => StringKey.noConfusion he) hca
  | createContract contract =>
    rw [hdata] at h
    simp only [Res.bind_ok, Res.pure_def, Res.bind_error, Res.throw_def,
      Account.balance_mk, Account.nonce_mk, Res.ok.injEq, Prod.mk.injEq] at h
    obtain ⟨hT2, hse⟩ := h
    subst hT2
    rw [ramKupdate_four]
    have hnd1 := nodupKeys_alinsert T (.contractKey (env.contractIdOf tx))
      (.vcontract contract) hnd
    have hca1 : CAInv (alinsert T (.contractKey (env.contractIdOf tx))
        (.vcontract contract)) :=
      cainv_alinsert_other _ _ _ (fun cid he => StringKey.noConfusion he) hca
    have h1 := ledger_insert_zero_entry env T hnd
      (.contractKey (env.contractIdOf tx)) (.vcontract contract)
      (fun he => StringKey.noConfusion he)
      (fun w _ => entryBalance_not_relevant _ w (not_relevant _ rfl)) rfl
    have hnd2 := nodupKeys_alinsert _ (.contractAccountKey (env.contractIdOf tx))
      (.vcontractAccount ⟨1, contract.initialState, 0⟩) hnd1
    have hca2 := cainv_alinsert_zero _ (env.contractIdOf tx)
      ⟨1, contract.initialState, 0⟩ rfl hca1
    have h2 := ledger_insert_zero_entry env _ hnd1
      (.contractAccountKey (env.contractIdOf tx))
      (.vcontractAccount ⟨1, contract.initialState, 0⟩)
      (fun he => StringKey.noConfusion he) (cainv_hold _ hca1 _) rfl
    have hnd3 := nodupKeys_alinsert _
      (.contractCompressedStateKey (env.contractIdOf tx) 1)
      (.vcompressed contract.initialState) hnd2
    have hca3 := cainv_alinsert_other _
      (.contractCompressedStateKey (env.contractIdOf tx) 1)
      (.vcompressed contract.initialState)
      (fun cid he => StringKey.noConfusion he) hca2
    have h3 := ledger_insert_zero_entry env _ hnd2
      (.contractCompressedStateKey (env.contractIdOf tx) 1)
      (.vcompressed contract.initialState) (fun he => StringKey.noConfusion he)
      (fun w _ => entryBalance_not_relevant _ w (not_relevant _ rfl)) rfl
    have h4 := ledger_insert_account env _ hnd3 tx.src acc
      (by rw [get_account_alinsert_ccsk, get_account_alinsert_cak,
            get_account_alinsert_ck]
          exact hacc)
      ⟨acc.balance - tx.fee, acc.nonce + 1⟩
    refine ⟨?_, nodupKeys_alinsert _ _ _ hnd3, ?_⟩
    · simp only [Account.balance_mk] at h4
      omega
    · exact cainv_alinsert_other _ _ _ (fun cid he => StringKey.noConfusion he) hca3
  | depositWithdraw cid amount next_state proof =>
    rw [hdata] at h
    simp only [Res.bind_ok, Res.pure_def, Res.bind_error, Res.throw_def] at h
    rcases Res.bind_eq_ok h with ⟨contract, hct, h⟩
    rcases Res.bind_eq_ok h with ⟨prev_account, hpa, h⟩
    rcases Res.bind_eq_ok h with ⟨okp, hok, h⟩
    by_cases hko : ¬okp = true
    · rw [if_pos hko] at h; exact absurd h (by simp)
    rw [if_neg hko] at h
    simp only [Res.bind_ok, Res.pure_def, Res.ok.injEq, Prod.mk.injEq,
      Account.balance_mk, Account.nonce_mk] at h
    obtain ⟨hT2, hse⟩ := h
    subst hT2
    rw [ramKupdate_three]
    have hnd1 := nodupKeys_alinsert T (.contractAccountKey cid)
      (.vcontractAccount ⟨prev_account.height + 1, next_state, 0⟩) hnd
    have hca1 := cainv_alinsert_zero T cid
      ⟨prev_account.height + 1, next_state, 0⟩ rfl hca
    have h1 := ledger_insert_zero_entry env T hnd (.contractAccountKey cid)
      (.vcontractAccount ⟨prev_account.height + 1, next_state, 0⟩)
      (fun he => StringKey.noConfusion he) (cainv_hold _ hca _) rfl
    have hnd2 := nodupKeys_alinsert _
      (.contractCompressedStateKey cid (prev_account.height + 1))
      (.vcompressed next_state) hnd1
    have hca2 := cainv_alinsert_other _
      (.contractCompressedStateKey cid (prev_account.height + 1))
      (.vcompressed next_state) (fun c he => StringKey.noConfusion he) hca1
    have h2 := ledger_insert_zero_entry env _ hnd1
      (.contractCompressedStateKey cid (prev_account.height + 1))
      (.vcompressed next_state) (fun he => StringKey.noConfusion he)
      (fun w _ => entryBalance_not_relevant _ w (not_relevant _ rfl)) rfl
    have h3 := ledger_insert_account env _ hnd2 tx.src acc
      (by rw [get_account_alinsert_ccsk, get_account_alinsert_cak]
          exact hacc)
      ⟨acc.balance - tx.fee, acc.nonce + 1⟩
    refine ⟨?_, nodupKeys_alinsert _ _ _ hnd2, ?_⟩
    · simp only [Account.balance_mk] at h3
      omega
    · exact cainv_alinsert_other _ _ _ (fun c he => StringKey.noConfusion he) hca2
  | update cid function_id next_state proof =>
    rw [hdata] at h
    simp only [Res.bind_ok, Res.pure_def, Res.bind_error, Res.throw_def] at h
    rcases Res.bind_eq_ok h with ⟨contract, hct, h⟩
    rcases Res.bind_eq_ok h with ⟨prev_account, hpa, h⟩
    cases hvk : contract.update.get? function_id with
    | none => rw [hvk] at h; exact absurd h (by simp)
    | some vk =>
    rw [hvk] at h
    simp only [Res.bind_ok, Res.pure_def, Res.bind_error, Res.throw_def] at h
    rcases Res.bind_eq_ok h with ⟨okp, hok, h⟩
    by_cases hko : ¬okp = true
    · rw [if_pos hko] at h; exact absurd h (by simp)
    rw [if_neg hko] at h
    simp only [Res.bind_ok, Res.pure_def, Res.ok.injEq, Prod.mk.injEq,
      Account.balance_mk, Account.nonce_mk] at h
    obtain ⟨hT2, hse⟩ := h
    subst hT2
    rw [ramKupdate_three]
    have hnd1 := nodupKeys_alinsert T (.contractAccountKey cid)
      (.vcontractAccount ⟨prev_account.height + 1, next_state, 0⟩) hnd
    have hca1 := cainv_alinsert_zero T cid
      ⟨prev_account.height + 1, next_state, 0⟩ rfl hca
    have h1 := ledger_insert_zero_entry env T hnd (.contractAccountKey cid)
      (.vcontractAccount ⟨prev_account.height + 1, next_state, 0⟩)
      (fun he => StringKey.noConfusion he) (cainv_hold _ hca _) rfl
    have hnd2 := nodupKeys_alinsert _
      (.contractCompressedStateKey cid (prev_account.height + 1))
      (.vcompressed next_state) hnd1
    have hca2 := cainv_alinsert_other _
      (.contractCompressedStateKey cid (prev_account.height + 1))
      (.vcompressed next_state) (fun c he => StringKey.noConfusion he) hca1
    have h2 := ledger_insert_zero_entry env _ hnd1
      (.contractCompressedStateKey cid (prev_account.height + 1))
      (.vcompressed next_state) (fun he => StringKey.noConfusion he)
      (fun w _ => entryBalance_not_relevant _ w (not_relevant _ rfl)) rfl
    have h3 := ledger_insert_account env _ hnd2 tx.src acc
      (by rw [get_account_alinsert_ccsk, get_account_alinsert_cak]
          exact hacc)
      ⟨acc.balance - tx.fee, acc.nonce + 1⟩
    refine ⟨?_, nodupKeys_alinsert _ _ _ hnd2, ?_⟩
    · simp only [Account.balance_mk] at h3
      omega
    · exact cainv_alinsert_other _ _ _ (fun c he => StringKey.noConfusion he) hca2

/-- A concrete environment instantiating the opaque parameters and
configuration constants, used by the evaluation witnesses and
counterexamples. -/
def envA : Env where
  totalSupply := 10000
  rewardRatio := 10
  medianTimestampCount := 10
  difficultyCalcInterval := 10
  maxDeltaSize := 1000000
  powBaseKey := 77
  powKeyChangeDelay := 4
  powKeyChangeInterval := 8
  hashHeader := fun h => h.number + 1000
  headerPower := fun _ => 1
  meetsTarget := fun _ _ => true
  calcPowDifficulty := fun _ _ => 0
  sigVerify := fun _ _ _ => true
  merkleTreeOf := fun _ => 5
  merkleRootOf := fun m => m
  contractIdOf := fun _ => 1
  groth16Verify := fun _ _ _ _ _ => true
  zkCompress := fun st _ => ⟨st, 0⟩
  zkRollbackFn := fun _ => none
  txSize := fun _ => 1
  zkCompressedHeight := fun s => s.stateSize

/-- A concrete chain store at height 1 (genesis header plus its power
record). -/
def storeC : Store :=
  [(.height, .vnat 1), (.powerKey 0, .vnat 5),
    (.headerKey 0, .vheader ⟨0, 0, 0, ⟨10, 7, 0⟩⟩)]

theorem will_extend_topology_and_power_witness :
    get_power ramKv storeC = Res.ok 5 ∧ get_height ramKv storeC = Res.ok 1 ∧
      will_extend envA ramKv storeC 0 [] true =
        Res.error .extendFromGenesis :=
  ⟨rfl, rfl,
    (will_extend_topology_and_power envA ramKv storeC 0 [] true 5 1
      rfl rfl).1.mpr rfl⟩

/-- The environment `envA` with `MEDIAN_TIMESTAMP_COUNT = 2`. -/
def envC : Env := { envA with medianTimestampCount := 2 }

/-- Persisted header 0 for the median-time-past scenario. -/
def h0C : Header := ⟨0, 0, 0, ⟨10, 7, 0⟩⟩

/-- Persisted header 1 (timestamp 10, child of `h0C`). -/
def h1C : Header := ⟨1000, 1, 0, ⟨10, 7, 0⟩⟩

/-- First candidate header (timestamp 1000, child of `h1C`). -/
def h2C : Header := ⟨1001, 2, 0, ⟨1000, 7, 0⟩⟩

/-- Second candidate header (timestamp 10, child of `h2C`). -/
def h3C : Header := ⟨1002, 3, 0, ⟨10, 7, 0⟩⟩

/-- A concrete chain store at height 2 holding `h0C` and `h1C`. -/
def storeD : Store :=
  [(.height, .vnat 2), (.powerKey 0, .vnat 1), (.powerKey 1, .vnat 2),
    (.headerKey 0, .vheader h0C), (.headerKey 1, .vheader h1C)]

/-- C9 counterexample: with `MEDIAN_TIMESTAMP_COUNT = 2`, the candidate
`h3C` (at position i+1 of the candidate list) has a timestamp strictly
below the median of the last 2 headers ending at its immediate
predecessor `h2C` (median of timestamps 1000 and 10 is 1000), so the
claim requires `will_extend` to reject it with `InvalidTimestamp` — but
`will_extend` accepts the chain, because every candidate is only checked
against the fork-point median (10). -/
theorem mtp_fork_point_counterexample :
    (median [h2C.proofOfWork.timestamp, h1C.proofOfWork.timestamp] = 1000 ∧
      h3C.proofOfWork.timestamp < 1000 ∧
      median_timestamp envC ramKv storeD 1 = Res.ok 10) ∧
    will_extend envC ramKv storeD 2 [h2C, h3C] false = Res.ok true :=
  ⟨⟨rfl, by decide, rfl⟩, rfl⟩

theorem will_extend_mtp_fork_point_witness :
    median_timestamp envC ramKv storeD (2 - 1) = Res.ok 10 ∧
      ((∀ b, will_extend envC ramKv storeD 2 [h2C, h3C] false = Res.ok b →
        ∀ h ∈ [h2C, h3C], ¬h.proofOfWork.timestamp < 10) ∧
      (will_extend envC ramKv storeD 2 [h2C, h3C] false =
          Res.error .invalidTimestamp →
        ∃ h ∈ [h2C, h3C], h.proofOfWork.timestamp < 10)) :=
  ⟨rfl,
    will_extend_mtp_fork_point envC ramKv storeD 2 [h2C, h3C] false 10 rfl⟩

/-- A concrete Treasury-sourced transaction. -/
def txTreas : Transaction :=
  { src := .treasury, nonce := 1, data := .regularSend (.publicKey 2) 5,
    fee := 0, sig := .unsigned }

theorem treasury_never_signature_error_witness :
    txTreas.src = Address.treasury ∧
      (verify_signature envA txTreas = true ∧
        apply_tx envA ramKv ([] : Store) txTreas true ≠
          Res.error .signatureError) :=
  ⟨rfl, treasury_never_signature_error envA ramKv ([] : Store) txTreas true rfl⟩

/-- A concrete store with one funded user account. -/
def storeA : Store := [(.accountKey (.publicKey 1), .vaccount ⟨10000, 0⟩)]

/-- A transaction whose nonce does not match the account nonce + 1. -/
def txBadNonce : Transaction :=
  { src := .publicKey 1, nonce := 5, data := .regularSend (.publicKey 2) 2700,
    fee := 300, sig := .signed 9 }

theorem apply_tx_check_order_witness :
    get_account envA ramKv storeA txBadNonce.src = Res.ok ⟨10000, 0⟩ ∧
      apply_tx envA ramKv storeA txBadNonce false =
        Res.error .invalidTransactionNonce :=
  ⟨by decide,
    (apply_tx_check_order envA storeA txBadNonce false ⟨10000, 0⟩
      (by decide)).2.2.1 (by decide) (by decide) (by decide)⟩

/-- A signed self-send `RegularSend` with matching nonce. -/
def selfSendTx (pk nc A F sg : Nat) : Transaction :=
  { src := .publicKey pk, nonce := nc + 1,
    data := .regularSend (.publicKey pk) A, fee := F, sig := .signed sg }

/-- A concrete store holding one account with balance 10 and nonce 0. -/
def storeB : Store := [(.accountKey (.publicKey 1), .vaccount ⟨10, 0⟩)]

/-- C7 counterexample: with balance 10, a signed self-send of amount 10
with fee 1 satisfies the claim's hypotheses (`balance ≥ F`,
`balance < A + F`, `A ≤ balance`, valid signature, correct nonce), but
`apply_tx` rejects it with `BalanceInsufficient` instead of applying it:
the amount is compared against the post-fee balance, not the pre-fee
balance. -/
theorem self_send_fee_only_counterexample :
    (1 ≤ 10 ∧ 10 < 10 + 1 ∧ 10 ≤ 10 ∧
      verify_signature envA (selfSendTx 1 0 10 1 3) = true ∧
      get_account envA ramKv storeB (.publicKey 1) = Res.ok ⟨10, 0⟩) ∧
    apply_tx envA ramKv storeB (selfSendTx 1 0 10 1 3) false =
      Res.error .balanceInsufficient :=
  ⟨⟨by decide, by decide, by decide, rfl, rfl⟩, rfl⟩

/-- C7 amended: a signed self-send `RegularSend{src→src, amount=A, fee=F}`
with a correct nonce fails with `BalanceInsufficient` when `balance < F`,
and also when `balance − F < A` (the amount is required to fit in the
post-fee balance, so `balance ≥ F` with `balance < A + F` is rejected);
when `A ≤ balance − F` it applies successfully and reduces the balance by
exactly F (the amount is neither debited nor credited). -/
theorem self_send_fee_only (env : Env) (S : Store) (pk A F nc bal sg : Nat)
    (hacc : get_account env ramKv S (.publicKey pk) = Res.ok ⟨bal, nc⟩)
    (hsig : verify_signature env (selfSendTx pk nc A F sg) = true) :
    (bal < F →
      apply_tx env ramKv S (selfSendTx pk nc A F sg) false =
        .error .balanceInsufficient) ∧
    (¬bal < F → bal - F < A →
      apply_tx env ramKv S (selfSendTx pk nc A F sg) false =
        .error .balanceInsufficient) ∧
    (¬bal < F → ¬bal - F < A →
      ∃ S', apply_tx env ramKv S (selfSendTx pk nc A F sg) false =
          .ok (S', .nothing) ∧
        get_account env ramKv S' (.publicKey pk) = .ok ⟨bal - F, nc + 1⟩) := by
  have hsrc : (selfSendTx pk nc A F sg).src = Address.publicKey pk := rfl
  have hsig2 : verify_signature env
      { src := Address.publicKey pk, nonce := nc + 1,
        data := TransactionData.regularSend (Address.publicKey pk) A,
        fee := F, sig := Signature.signed sg } = true := hsig
  refine ⟨?_, ?_, ?_⟩
  · intro hbf
    simp only [apply_tx, hacc, hsrc, Res.bind_ok, Res.pure_def, Res.bind_error,
      Res.throw_def, selfSendTx]
    rw [if_neg (by simp), if_neg (not_not_intro hsig2), if_neg (by simp),
      if_pos hbf]
  · intro hbf hba
    simp only [apply_tx, hacc, hsrc, Res.bind_ok, Res.pure_def, Res.bind_error,
      Res.throw_def, selfSendTx]
    rw [if_neg (by simp), if_neg (not_not_intro hsig2), if_neg (by simp),
      if_neg hbf, if_pos hba]
  · intro hbf hba
    refine ⟨_, ?_, get_account_after_update env S [] (.publicKey pk) _⟩
    simp only [apply_tx, hacc, hsrc, Res.bind_ok, Res.pure_def, Res.bind_error,
      Res.throw_def, selfSendTx]
    rw [if_neg (by simp), if_neg (not_not_intro hsig2), if_neg (by simp),
      if_neg hbf, if_neg hba, if_neg (by simp)]

theorem self_send_fee_only_witness :
    (get_account envA ramKv storeB (.publicKey 1) = Res.ok ⟨10, 0⟩ ∧
      verify_signature envA (selfSendTx 1 0 5 1 3) = true) ∧
    (∃ S', apply_tx envA ramKv storeB (selfSendTx 1 0 5 1 3) false =
        Res.ok (S', .nothing) ∧
      get_account envA ramKv S' (.publicKey 1) = Res.ok ⟨10 - 1, 0 + 1⟩) :=
  ⟨⟨rfl, rfl⟩,
    (self_send_fee_only envA storeB 1 5 1 0 10 3 rfl rfl).2.2
      (by decide) (by decide)⟩

/-- The `usize` reinterpretation of an `isize` value
(`(body_size as isize + state_size_delta) as usize` in `apply_block`):
two's-complement wraparound at 64 bits. -/
def usizeOfIsize (t : Int) : Nat := (t % (2 ^ 64 : Int)).toNat

/-- The loop state of the transaction loop of `apply_block`:
`(fork overlay, body_size, state_size_delta, state_updates,
outdated_states)`. -/
abbrev ApplyLoopState : Type :=
  Overlay × Nat × Int × List (ContractId × ZkCompressedStateChange) ×
    List (ContractId × ZkCompressedState)

/-- One iteration of the `for tx in txs.iter()` loop of `apply_block`
(`src/blockchain/mod.rs`): accumulate the body size, apply the
transaction on the fork, and record any contract state change. -/
def apply_block_tx_step (env : Env) (S : Store) (is_genesis : Bool)
    (st : ApplyLoopState) (tx : Transaction) : Res ApplyLoopState := do
  let (ov, bs, ssd, su, od) := st
  let bs := bs + env.txSize tx
  let (ov2, se) ← apply_tx env (mirrorKv S) ov tx is_genesis
  match se with
  | .stateChange cid sc =>
    pure (ov2, bs, ssd + ((sc.state.size : Int) - (sc.prevState.size : Int)),
      alinsert su cid sc, alinsert od cid sc.state)
  | .nothing => pure (ov2, bs, ssd, su, od)

/-- The miner-reward gate at the top of `apply_block`
(`src/blockchain/mod.rs`): for non-genesis blocks the first transaction
must be a Treasury-sourced, zero-fee, unsigned `RegularSend` of exactly
`next_reward`; it is applied on the fork with `allow_treasury = true`,
and the remaining transactions are returned.  For the genesis block the
whole body is returned on a fresh fork. -/
def apply_block_reward_gate (env : Env) (S : Store) (is_genesis : Bool)
    (body : List Transaction) (next_reward_ : Nat) :
    Res (Overlay × List Transaction) := do
  if is_genesis then
    pure (([] : Overlay), body)
  else
    match body with
    | [] => throw .minerRewardNotFound
    | reward_tx :: rest => do
      if reward_tx.src ≠ .treasury ∨ reward_tx.fee ≠ 0 ∨
          reward_tx.sig ≠ .unsigned then
        throw .invalidMinerReward
      match reward_tx.data with
      | .regularSend _ amount =>
        if amount ≠ next_reward_ then throw .invalidMinerReward
      | _ => throw .invalidMinerReward
      let (ov1, _) ← apply_tx env (mirrorKv S) ([] : Overlay) reward_tx true
      pure ((ov1, rest))

/-- `apply_block` (`src/blockchain/mod.rs`): validate a block against the
current tip, apply its transactions on a RAM overlay fork, and commit
every effect with a single atomic `update` of the computed batch.  The
returned store is the committed store; every early `return Err(..)`
leaves the base store untouched (the only `self.database.update` call is
the final one). -/
def apply_block (env : Env) (S : Store) (b : Block) (checkPow : Bool) :
    Res Store := do
  let curr_height ← get_height ramKv S
  let is_genesis : Bool := b.header.number == 0
  let next_reward_ ← next_reward env ramKv S
  if curr_height > 0 then do
    if env.merkleRootOf (env.merkleTreeOf b.body) ≠ b.header.blockRoot then
      throw .invalidMerkleRoot
    let _ ← will_extend env ramKv S curr_height [b.header] checkPow
  let (ov0, txs) ← apply_block_reward_gate env S is_genesis b.body next_reward_
  let outdated0 ← get_outdated_states ramKv S
  let fin ← txs.foldlM (apply_block_tx_step env S is_genesis)
    ((ov0, 0, 0, [], outdated0) : ApplyLoopState)
  let (ovF, body_size, ssd, state_updates, outdated) := fin
  if usizeOfIsize ((body_size : Int) + ssd) > env.maxDeltaSize then
    throw .blockTooBig
  let changes := toOps ovF ++ [(.height, some (.vnat (curr_height + 1)))]
  let pw ← get_power ramKv S
  let changes := changes ++
    [(.powerKey b.header.number, some (.vnat (env.headerPower b.header + pw)))]
  let changes := changes ++
    [(.rollbackKey b.header.number, some (.vops (rollback_of S changes)))]
  let changes := changes ++
    [(.headerKey b.header.number, some (.vheader b.header)),
      (.blockKey b.header.number, some (.vblock b)),
      (.merkleKey b.header.number, some (.vmerkle (env.merkleTreeOf b.body))),
      (.contractUpdatesKey b.header.number, some (.vupdatesMap state_updates)),
      (.outdated, some (.vstateMap outdated))]
  pure (ramUpdate S changes)

/-- The write batch computed by `apply_block` before its final
`self.database.update(&changes)` call: the fork overlay's pending ops
followed by the height, power, rollback-log, header, block, merkle,
contract-updates and outdated bookkeeping entries. -/
def apply_block_changes (env : Env) (S : Store) (b : Block) (checkPow : Bool) :
    Res (List WriteOp) := do
  let curr_height ← get_height ramKv S
  let is_genesis : Bool := b.header.number == 0
  let next_reward_ ← next_reward env ramKv S
  if curr_height > 0 then do
    if env.merkleRootOf (env.merkleTreeOf b.body) ≠ b.header.blockRoot then
      throw .invalidMerkleRoot
    let _ ← will_extend env ramKv S curr_height [b.header] checkPow
  let (ov0, txs) ← apply_block_reward_gate env S is_genesis b.body next_reward_
  let outdated0 ← get_outdated_states ramKv S
  let fin ← txs.foldlM (apply_block_tx_step env S is_genesis)
    ((ov0, 0, 0, [], outdated0) : ApplyLoopState)
  let (ovF, body_size, ssd, state_updates, outdated) := fin
  if usizeOfIsize ((body_size : Int) + ssd) > env.maxDeltaSize then
    throw .blockTooBig
  let changes := toOps ovF ++ [(.height, some (.vnat (curr_height + 1)))]
  let pw ← get_power ramKv S
  let changes := changes ++
    [(.powerKey b.header.number, some (.vnat (env.headerPower b.header + pw)))]
  let changes := changes ++
    [(.rollbackKey b.header.number, some (.vops (rollback_of S changes)))]
  let changes := changes ++
    [(.headerKey b.header.number, some (.vheader b.header)),
      (.blockKey b.header.number, some (.vblock b)),
      (.merkleKey b.header.number, some (.vmerkle (env.merkleTreeOf b.body))),
      (.contractUpdatesKey b.header.number, some (.vupdatesMap state_updates)),
      (.outdated, some (.vstateMap outdated))]
  pure changes

/-- One iteration of the `for (cid, comp) in changed_states` loop of
`rollback_block` (`src/blockchain/mod.rs`), threading
`(rollback ops, outdated map)`: contracts already outdated are skipped;
otherwise the full state is rolled back and verified against the
recorded previous compressed state, or the contract is marked
outdated. -/
def rollback_block_state_step (env : Env) (S : Store)
    (st : List WriteOp × List (ContractId × ZkCompressedState))
    (p : ContractId × ZkCompressedStateChange) :
    Res (List WriteOp × List (ContractId × ZkCompressedState)) := do
  let (rb, od) := st
  let (cid, comp) := p
  if (alget od cid).isSome then
    pure (rb, od)
  else do
    let contract ← get_contract ramKv S cid
    let state ← get_state ramKv S cid
    match env.zkRollbackFn state with
    | some state2 =>
      if env.zkCompress state2 contract.stateModel ≠ comp.prevState then
        throw .inconsistency
      else
        pure (rb ++ [(.contractStateKey cid, some (.vzkState state2))], od)
    | none =>
      if env.zkCompressedHeight comp.prevState > 0 then
        pure (rb, alinsert od cid comp.prevState)
      else
        pure (rb, od)

theorem apply_block_tx_step_ok (env : Env) (S : Store) (g : Bool)
    (st st' : ApplyLoopState) (tx : Transaction)
    (h : apply_block_tx_step env S g st tx = .ok st') :
    ∃ se, apply_tx env (mirrorKv S) st.1 tx g = .ok (st'.1, se) := by
  obtain ⟨ov, bs, ssd, su, od⟩ := st
  unfold apply_block_tx_step at h
  simp only [Res.bind_ok, Res.pure_def, Res.bind_error, Res.throw_def] at h
  rcases Res.bind_eq_ok h with ⟨p, hap, h⟩
  obtain ⟨ov2, se⟩ := p
  cases se with
  | stateChange cid sc =>
    simp only [Res.pure_def, Res.ok.injEq] at h
    refine ⟨.stateChange cid sc, ?_⟩
    rw [← h]
    exact hap
  | nothing =>
    simp only [Res.pure_def, Res.ok.injEq] at h
    refine ⟨.nothing, ?_⟩
    rw [← h]
    exact hap

/-- Fold of the `apply_block` transaction loop on the fork overlay,
simulated on a pointwise-equal RAM store: total ledger drops by exactly
the sum of the fees of the applied transactions. -/
theorem apply_block_loop_ledger (env : Env) (S : Store) (g : Bool)
    (txs : List Transaction) :
    ∀ (st : ApplyLoopState) (fin : ApplyLoopState),
      txs.foldlM (apply_block_tx_step env S g) st = .ok fin →
      ∀ T : Store, (∀ k, mirrorGet S st.1 k = ramGet T k) →
        NodupKeys st.1 → (∀ p ∈ st.1, TxOp p) →
        NodupKeys T → CAInv T →
        ∃ T' : Store, (∀ k, mirrorGet S fin.1 k = ramGet T' k) ∧
          NodupKeys fin.1 ∧ (∀ p ∈ fin.1, TxOp p) ∧
          NodupKeys T' ∧ CAInv T' ∧
          ledgerSum env T' + (txs.map (fun tx => tx.fee)).sum = ledgerSum env T := by
  induction txs with
  | nil =>
    intro st fin h T hpt hndov hshape hndT hcaT
    simp only [List.foldlM_nil, Res.pure_def, Res.ok.injEq] at h
    subst h
    exact ⟨T, hpt, hndov, hshape, hndT, hcaT, by simp⟩
  | cons tx rest ih =>
    intro st fin h T hpt hndov hshape hndT hcaT
    rw [List.foldlM_cons] at h
    rcases Res.bind_eq_ok h with ⟨st1, hstep, h⟩
    obtain ⟨se, hap⟩ := apply_block_tx_step_ok env S g st st1 tx hstep
    obtain ⟨ops, hov2, hops, hram⟩ :=
      apply_tx_mirror_sim env S T st.1 tx g hpt st1.1 se hap
    obtain ⟨hled, hndT2, hcaT2⟩ :=
      apply_tx_ledger env T tx g hndT hcaT (ramUpdate T ops) se hram
    have hpt2 : ∀ k, mirrorGet S st1.1 k = ramGet (ramUpdate T ops) k := by
      intro k
      rw [hov2]
      exact mirror_ram_update_agree S T st.1 hpt ops k
    have hndov2 : NodupKeys st1.1 := by
      rw [hov2]
      exact nodupKeys_mirror_update S ops st.1 hndov
    have hshape2 : ∀ p ∈ st1.1, TxOp p := by
      rw [hov2]
      exact overlay_shape_update S TxOp ops st.1 hshape hops
    obtain ⟨T', h1, h2, h3, h4, h5, h6⟩ :=
      ih st1 fin h (ramUpdate T ops) hpt2 hndov2 hshape2 hndT2 hcaT2
    refine ⟨T', h1, h2, h3, h4, h5, ?_⟩
    rw [List.map_cons, List.sum_cons]
    omega

/-- Success shape of the miner-reward gate: on genesis the body passes
through on a fresh fork; otherwise the first transaction is the
zero-fee Treasury reward transaction, applied on the fresh fork. -/
theorem apply_block_reward_gate_ok (env : Env) (S : Store) (g : Bool)
    (body : List Transaction) (nr : Nat) (ov0 : Overlay)
    (txs : List Transaction)
    (h : apply_block_reward_gate env S g body nr = .ok (ov0, txs)) :
    (g = true ∧ ov0 = [] ∧ txs = body) ∨
    (∃ rtx rest se, body = rtx :: rest ∧ txs = rest ∧ rtx.fee = 0 ∧
      apply_tx env (mirrorKv S) [] rtx true = .ok (ov0, se)) := by
  unfold apply_block_reward_gate at h
  cases g with
  | true =>
    rw [if_pos rfl] at h
    simp only [Res.pure_def, Res.ok.injEq, Prod.mk.injEq] at h
    exact Or.inl ⟨rfl, h.1.symm, h.2.symm⟩
  | false =>
    rw [if_neg (by simp)] at h
    cases body with
    | nil => exact absurd h (by simp [Res.throw_def])
    | cons rtx rest =>
      simp only [Res.bind_ok, Res.pure_def, Res.bind_error, Res.throw_def] at h
      by_cases hc1 : rtx.src ≠ .treasury ∨ rtx.fee ≠ 0 ∨ rtx.sig ≠ .unsigned
      · rw [if_pos hc1] at h
        exact absurd h (by simp)
      rw [if_neg hc1] at h
      cases hdata : rtx.data with
      | regularSend dst amount =>
        rw [hdata] at h
        simp only [Res.bind_ok, Res.pure_def, Res.bind_error, Res.throw_def] at h
        by_cases hamt : amount ≠ nr
        · rw [if_pos hamt] at h
          exact absurd h (by simp)
        rw [if_neg hamt] at h
        rcases Res.bind_eq_ok h with ⟨p, hap, h⟩
        obtain ⟨ov1, se1⟩ := p
        simp only [Res.pure_def, Res.ok.injEq, Prod.mk.injEq] at h
        obtain ⟨h1, h2⟩ := h
        push_neg at hc1
        refine Or.inr ⟨rtx, rest, se1, rfl, h2.symm, hc1.2.1, ?_⟩
        rw [← h1]
        exact hap
      | createContract c =>
        rw [hdata] at h
        exact absurd h (by simp [Res.throw_def, Res.bind_error])
      | depositWithdraw a b c d =>
        rw [hdata] at h
        exact absurd h (by simp [Res.throw_def, Res.bind_error])
      | update a b c d =>
        rw [hdata] at h
        exact absurd h (by simp [Res.throw_def, Res.bind_error])

theorem ledger_applyOp_irrelevant (env : Env) (T : Store) (op : WriteOp)
    (hnd : NodupKeys T) (hrel : ¬RelevantKey op.1) :
    ledgerSum env (applyOp T op) = ledgerSum env T := by
  rcases op with ⟨k, v?⟩
  have hkt : ¬(k = .accountKey .treasury) := fun h => hrel (h ▸ Or.inl ⟨_, rfl⟩)
  cases v? with
  | some v =>
    show ledgerSum env (alinsert T k v) = ledgerSum env T
    exact ledger_insert_zero_entry env T hnd k v hkt
      (fun w _ => entryBalance_not_relevant k w hrel)
      (entryBalance_not_relevant k v hrel)
  | none =>
    show ledgerSum env (alremove T k) = ledgerSum env T
    unfold ledgerSum
    have hD : alget (alremove T k) (.accountKey .treasury) =
        alget T (.accountKey .treasury) := by
      rw [alget_remove,
        if_neg (fun h : (StringKey.accountKey .treasury) = k => hkt h.symm)]
    rw [hD]
    cases hga : alget T k with
    | none =>
      have hsum := sum_map_alremove_none T k hnd hga
      omega
    | some w =>
      have hsum := sum_map_alremove_some T k w hnd hga
      rw [entryBalance_not_relevant k w hrel] at hsum
      omega

theorem ledger_update_irrelevant (env : Env) (ops : List WriteOp) :
    ∀ T : Store, NodupKeys T → (∀ p ∈ ops, ¬RelevantKey p.1) →
      ledgerSum env (ramUpdate T ops) = ledgerSum env T := by
  induction ops with
  | nil => intro T _ _; rfl
  | cons op rest ih =>
    intro T hnd hrel
    show ledgerSum env (ramUpdate (applyOp T op) rest) = _
    rw [ih (applyOp T op) (nodupKeys_applyOp T op hnd)
      (fun p hp => hrel p (List.mem_cons_of_mem _ hp))]
    exact ledger_applyOp_irrelevant env T op hnd (hrel op (List.mem_cons_self _ _))

/-- The batch `apply_block` commits, expressed from the loop results: the
fork overlay's ops, then height, power, the rollback log of the prefix,
and the per-block bookkeeping entries (`src/blockchain/mod.rs`). -/
def blockChangesFrom (env : Env) (S : Store) (b : Block) (curr pw : Nat)
    (ovF : Overlay) (su : List (ContractId × ZkCompressedStateChange))
    (od : List (ContractId × ZkCompressedState)) : List WriteOp :=
  toOps ovF ++ [(.height, some (.vnat (curr + 1)))] ++
    [(.powerKey b.header.number, some (.vnat (env.headerPower b.header + pw)))] ++
    [(.rollbackKey b.header.number, some (.vops (rollback_of S
      (toOps ovF ++ [(.height, some (.vnat (curr + 1)))] ++
        [(.powerKey b.header.number,
          some (.vnat (env.headerPower b.header + pw)))]))))] ++
    [(.headerKey b.header.number, some (.vheader b.header)),
      (.blockKey b.header.number, some (.vblock b)),
      (.merkleKey b.header.number, some (.vmerkle (env.merkleTreeOf b.body))),
      (.contractUpdatesKey b.header.number, some (.vupdatesMap su)),
      (.outdated, some (.vstateMap od))]

/-- The tail of `apply_block` after the tip checks: reward gate,
transaction loop, size check, batch assembly and the single commit
(`src/blockchain/mod.rs`). -/
def apply_block_tail (env : Env) (S : Store) (b : Block) (curr nr : Nat) :
    Res Store := do
  let (ov0, txs) ← apply_block_reward_gate env S (b.header.number == 0) b.body nr
  let outdated0 ← get_outdated_states ramKv S
  let fin ← txs.foldlM (apply_block_tx_step env S (b.header.number == 0))
    ((ov0, 0, 0, [], outdated0) : ApplyLoopState)
  let (ovF, body_size, ssd, state_updates, outdated) := fin
  if usizeOfIsize ((body_size : Int) + ssd) > env.maxDeltaSize then
    throw .blockTooBig
  let changes := toOps ovF ++ [(.height, some (.vnat (curr + 1)))]
  let pw ← get_power ramKv S
  let changes := changes ++
    [(.powerKey b.header.number, some (.vnat (env.headerPower b.header + pw)))]
  let changes := changes ++
    [(.rollbackKey b.header.number, some (.vops (rollback_of S changes)))]
  let changes := changes ++
    [(.headerKey b.header.number, some (.vheader b.header)),
      (.blockKey b.header.number, some (.vblock b)),
      (.merkleKey b.header.number, some (.vmerkle (env.merkleTreeOf b.body))),
      (.contractUpdatesKey b.header.number, some (.vupdatesMap state_updates)),
      (.outdated, some (.vstateMap outdated))]
  pure (ramUpdate S changes)

theorem apply_block_tail_shape (env : Env) (S : Store) (b : Block)
    (curr nr : Nat) (S' : Store) (hnd : NodupKeys S) (hca : CAInv S)
    (h : apply_block_tail env S b curr nr = .ok S') :
    ∃ (pw : Nat) (ovF : Overlay)
      (su : List (ContractId × ZkCompressedStateChange))
      (od : List (ContractId × ZkCompressedState)) (T' : Store),
      (∀ p ∈ ovF, TxOp p) ∧ NodupKeys ovF ∧
      (∀ k, mirrorGet S ovF k = ramGet T' k) ∧ NodupKeys T' ∧ CAInv T' ∧
      ledgerSum env T' + (b.body.map (fun tx => tx.fee)).sum = ledgerSum env S ∧
      S' = ramUpdate S (blockChangesFrom env S b curr pw ovF su od) := by
  unfold apply_block_tail at h
  rcases Res.bind_eq_ok h with ⟨p0, hgate, ha⟩
  obtain ⟨ov0, txs⟩ := p0
  rcases Res.bind_eq_ok ha with ⟨outdated0, hod0, hb⟩
  rcases Res.bind_eq_ok hb with ⟨fin, hfold, hc⟩
  obtain ⟨ovF, bs, ssd, su, od⟩ := fin
  simp only [Res.bind_ok, Res.pure_def, Res.bind_error, Res.throw_def] at hc
  by_cases hbig : usizeOfIsize ((bs : Int) + ssd) > env.maxDeltaSize
  · rw [if_pos hbig] at hc
    exact absurd hc (by simp)
  rw [if_neg hbig] at hc
  rcases Res.bind_eq_ok hc with ⟨pw, hpw, hd⟩
  simp only [Res.pure_def, Res.ok.injEq] at hd
  have hptnil : ∀ k, mirrorGet S ([] : Overlay) k = ramGet S k :=
    fun k => mirrorGet_nil S k
  have hndnil : NodupKeys ([] : Overlay) := List.nodup_nil
  have hshnil : ∀ p ∈ ([] : Overlay), TxOp p :=
    fun p hp => absurd hp (List.not_mem_nil p)
  rcases apply_block_reward_gate_ok env S _ b.body nr ov0 txs hgate with
    ⟨_, hov0, htxs⟩ | ⟨rtx, rest, se, hbody, htxs, hfee, hap⟩
  · subst hov0
    subst htxs
    obtain ⟨T', hpt', hndF, hshapeF, hndT', hcaT', hled⟩ :=
      apply_block_loop_ledger env S _ b.body _ _ hfold S hptnil hndnil hshnil
        hnd hca
    refine ⟨pw, ovF, su, od, T', hshapeF, hndF, hpt', hndT', hcaT', hled, ?_⟩
    rw [← hd]
    rfl
  · subst htxs
    obtain ⟨ops0, hov0, hops0, hram0⟩ :=
      apply_tx_mirror_sim env S S [] rtx true hptnil ov0 se hap
    obtain ⟨hled0, hnd0, hca0⟩ :=
      apply_tx_ledger env S rtx true hnd hca (ramUpdate S ops0) se hram0
    have hpt0 : ∀ k, mirrorGet S ov0 k = ramGet (ramUpdate S ops0) k := by
      intro k
      rw [hov0]
      exact mirror_ram_update_agree S S [] hptnil ops0 k
    have hndov0 : NodupKeys ov0 := by
      rw [hov0]
      exact nodupKeys_mirror_update S ops0 [] hndnil
    have hshape0 : ∀ p ∈ ov0, TxOp p := by
      rw [hov0]
      exact overlay_shape_update S TxOp ops0 [] hshnil hops0
    obtain ⟨T', hpt', hndF, hshapeF, hndT', hcaT', hled⟩ :=
      apply_block_loop_ledger env S _ txs _ _ hfold (ramUpdate S ops0) hpt0
        hndov0 hshape0 hnd0 hca0
    refine ⟨pw, ovF, su, od, T', hshapeF, hndF, hpt', hndT', hcaT', ?_, ?_⟩
    · rw [hbody, List.map_cons, List.sum_cons]
      omega
    · rw [← hd]
      rfl

/-- Success shape of `apply_block` on a well-formed store: the committed
batch is the canonical `blockChangesFrom` batch built from the fork
overlay (whose ops all have `TxOp` shape), and the fork view agrees
pointwise with a store whose ledger is the base ledger minus the body's
fees. -/
theorem apply_block_ok_shape (env : Env) (S : Store) (b : Block) (cp : Bool)
    (S' : Store) (hnd : NodupKeys S) (hca : CAInv S)
    (h : apply_block env S b cp = .ok S') :
    ∃ (curr pw : Nat) (ovF : Overlay)
      (su : List (ContractId × ZkCompressedStateChange))
      (od : List (ContractId × ZkCompressedState)) (T' : Store),
      get_height ramKv S = .ok curr ∧
      (∀ p ∈ ovF, TxOp p) ∧ NodupKeys ovF ∧
      (∀ k, mirrorGet S ovF k = ramGet T' k) ∧ NodupKeys T' ∧ CAInv T' ∧
      ledgerSum env T' + (b.body.map (fun tx => tx.fee)).sum = ledgerSum env S ∧
      S' = ramUpdate S (blockChangesFrom env S b curr pw ovF su od) := by
  unfold apply_block at h
  cases hcur : get_height ramKv S with
  | panic => rw [hcur] at h; exact absurd h (by simp [Res.bind_panic])
  | error e => rw [hcur] at h; exact absurd h (by simp [Res.bind_error])
  | ok curr =>
  rw [hcur] at h
  simp only [Res.bind_ok] at h
  cases hnr : next_reward env ramKv S with
  | panic => rw [hnr] at h; exact absurd h (by simp [Res.bind_panic])
  | error e => rw [hnr] at h; exact absurd h (by simp [Res.bind_error])
  | ok nr =>
  rw [hnr] at h
  simp only [Res.bind_ok, Res.pure_def, Res.bind_error, Res.throw_def] at h
  by_cases hcz : curr > 0
  · rw [if_pos hcz] at h
    by_cases hmr : env.merkleRootOf (env.merkleTreeOf b.body) ≠ b.header.blockRoot
    · rw [if_pos hmr] at h
      exact absurd h (by simp)
    rw [if_neg hmr] at h
    cases hwe : will_extend env ramKv S curr [b.header] cp with
    | panic => rw [hwe] at h; exact absurd h (by simp [Res.bind_panic])
    | error e => rw [hwe] at h; exact absurd h (by simp [Res.bind_error])
    | ok wr =>
    rw [hwe] at h
    simp only [Res.bind_ok, Res.pure_def] at h
    have h2 : apply_block_tail env S b curr nr = Res.ok S' := h
    obtain ⟨pw, ovF, su, od, T', c1, c2, c3, c4, c5, c6, c7⟩ :=
      apply_block_tail_shape env S b curr nr S' hnd hca h2
    exact ⟨curr, pw, ovF, su, od, T', rfl, c1, c2, c3, c4, c5, c6, c7⟩
  · rw [if_neg hcz] at h
    have h2 : apply_block_tail env S b curr nr = Res.ok S' := h
    obtain ⟨pw, ovF, su, od, T', c1, c2, c3, c4, c5, c6, c7⟩ :=
      apply_block_tail_shape env S b curr nr S' hnd hca h2
    exact ⟨curr, pw, ovF, su, od, T', rfl, c1, c2, c3, c4, c5, c6, c7⟩

theorem lastTouch_append_none (l bk : List WriteOp) (k : StringKey)
    (hbk : ∀ p ∈ bk, ¬(p.1 = k)) :
    lastTouch (l ++ bk) k = lastTouch l k := by
  rw [lastTouch_append, lastTouch_eq_none bk k hbk]
  rfl

theorem ledger_update_append_irrelevant (env : Env) (T : Store)
    (l bk : List WriteOp) (hnd : NodupKeys T)
    (hirr : ∀ p ∈ bk, ¬RelevantKey p.1) :
    ledgerSum env (ramUpdate T (l ++ bk)) = ledgerSum env (ramUpdate T l) := by
  rw [ramUpdate_append]
  exact ledger_update_irrelevant env bk (ramUpdate T l)
    (nodupKeys_ramUpdate T l hnd) hirr

theorem cainv_ramUpdate (S : Store) (ops : List WriteOp) (hca : CAInv S)
    (hops : ∀ cid : ContractId, ∀ v?,
      lastTouch ops (.contractAccountKey cid) = some v? →
      ∀ ca, v? = some (.vcontractAccount ca) → ca.balance = 0) :
    CAInv (ramUpdate S ops) := by
  intro cid ca hget
  have hg : ramGet (ramUpdate S ops) (.contractAccountKey cid) =
      some (.vcontractAccount ca) := hget
  rw [ramGet_ramUpdate] at hg
  cases hlt : lastTouch ops (.contractAccountKey cid) with
  | none =>
    rw [hlt] at hg
    exact hca cid ca hg
  | some v? =>
    rw [hlt] at hg
    exact hops cid v? hlt ca hg

/-- C2 fee law at block level: a successful `apply_block` decreases the
total ledger (accounts including the Treasury default, plus contract
accounts) by exactly the sum of the fees of the block's body, and
preserves the store invariants. -/
theorem apply_block_fee_law (env : Env) (S : Store) (b : Block) (cp : Bool)
    (S' : Store) (hnd : NodupKeys S) (hca : CAInv S)
    (h : apply_block env S b cp = .ok S') :
    ledgerSum env S' + (b.body.map (fun tx => tx.fee)).sum = ledgerSum env S ∧
    NodupKeys S' ∧ CAInv S' := by
  obtain ⟨curr, pw, ovF, su, od, T', hcur, hshape, hndov, hpt, hndT, hcaT, hled,
    hS'⟩ := apply_block_ok_shape env S b cp S' hnd hca h
  have e1 : ledgerSum env (ramUpdate S (blockChangesFrom env S b curr pw ovF su od)) =
      ledgerSum env (ramUpdate S (toOps ovF)) := by
    unfold blockChangesFrom
    rw [ledger_update_append_irrelevant env S _ _ hnd (by
      intro p hp
      simp only [List.mem_cons, List.not_mem_nil, or_false] at hp
      rcases hp with rfl | rfl | rfl | rfl | rfl <;> exact not_relevant _ rfl)]
    rw [ledger_update_append_irrelevant env S _ _ hnd (by
      intro p hp
      simp only [List.mem_cons, List.not_mem_nil, or_false] at hp
      subst hp
      exact not_relevant _ rfl)]
    rw [ledger_update_append_irrelevant env S _ _ hnd (by
      intro p hp
      simp only [List.mem_cons, List.not_mem_nil, or_false] at hp
      subst hp
      exact not_relevant _ rfl)]
    rw [ledger_update_append_irrelevant env S _ _ hnd (by
      intro p hp
      simp only [List.mem_cons, List.not_mem_nil, or_false] at hp
      subst hp
      exact not_relevant _ rfl)]
  have e2 : ledgerSum env (ramUpdate S (toOps ovF)) = ledgerSum env T' := by
    apply ledgerSum_ext env _ T' (nodupKeys_ramUpdate S _ hnd) hndT
    intro k _
    rw [← mirrorGet_eq_ramGet_update S ovF hndov k]
    exact hpt k
  subst hS'
  refine ⟨?_, nodupKeys_ramUpdate S _ hnd, ?_⟩
  · rw [e1, e2]
    exact hled
  · apply cainv_ramUpdate S _ hca
    intro cid v? hlt ca hv
    unfold blockChangesFrom at hlt
    rw [lastTouch_append_none _ _ _ (by
      intro p hp
      simp only [List.mem_cons, List.not_mem_nil, or_false] at hp
      rcases hp with rfl | rfl | rfl | rfl | rfl <;>
        exact fun he => StringKey.noConfusion he)] at hlt
    rw [lastTouch_append_none _ _ _ (by
      intro p hp
      simp only [List.mem_cons, List.not_mem_nil, or_false] at hp
      subst hp
      exact fun he => StringKey.noConfusion he)] at hlt
    rw [lastTouch_append_none _ _ _ (by
      intro p hp
      simp only [List.mem_cons, List.not_mem_nil, or_false] at hp
      subst hp
      exact fun he => StringKey.noConfusion he)] at hlt
    rw [lastTouch_append_none _ _ _ (by
      intro p hp
      simp only [List.mem_cons, List.not_mem_nil, or_false] at hp
      subst hp
      exact fun he => StringKey.noConfusion he)] at hlt
    have hm := lastTouch_mem _ _ _ hlt
    exact hshape _ hm ca hv

/-- `rollback_block` (`src/blockchain/mod.rs`): undo the last block by
applying its stored inverse batch, rolling back full contract states,
and removing the per-block records.  NOTE: this revision has no
`height > 0` precondition check and no `NoBlocksToRollback` error
variant — at height 0 the unsigned computation `height - 1` underflows,
which is modelled as a panic (Rust debug builds abort here; release
builds wrap around to `u64::MAX`). -/
def rollback_block (env : Env) (S : Store) : Res Store := do
  let height ← get_height ramKv S
  if height = 0 then
    Res.panic
  else do
    let rollback0 ←
      match ramGet S (.rollbackKey (height - 1)) with
      | some (.vops l) => pure l
      | some _ => throw .kvStoreError
      | none => throw .inconsistency
    let outdated0 ← get_outdated_states ramKv S
    let changed ← get_changed_states ramKv S (height - 1)
    let fin ← changed.foldlM (rollback_block_state_step env S)
      (rollback0, outdated0)
    let (rollback1, outdated1) := fin
    let rollback2 := rollback1 ++
      [(.outdated, some (.vstateMap outdated1)),
        (.headerKey (height - 1), none), (.blockKey (height - 1), none),
        (.merkleKey (height - 1), none),
        (.contractUpdatesKey (height - 1), none),
        (.rollbackKey (height - 1), none)]
    pure (ramUpdate S rollback2)

theorem rollback_loop_shape (env : Env) (S : Store)
    (changed : List (ContractId × ZkCompressedStateChange)) :
    ∀ (st fin : List WriteOp × List (ContractId × ZkCompressedState)),
      changed.foldlM (rollback_block_state_step env S) st = .ok fin →
      ∃ extra, fin.1 = st.1 ++ extra ∧
        ∀ p ∈ extra, ∃ c, p.1 = StringKey.contractStateKey c := by
  induction changed with
  | nil =>
    intro st fin h
    simp only [List.foldlM_nil, Res.pure_def, Res.ok.injEq] at h
    subst h
    exact ⟨[], (List.append_nil _).symm,
      fun p hp => absurd hp (List.not_mem_nil p)⟩
  | cons q rest ih =>
    intro st fin h
    rw [List.foldlM_cons] at h
    rcases Res.bind_eq_ok h with ⟨st1, hstep, h⟩
    have hstep1 : ∃ extra1, st1.1 = st.1 ++ extra1 ∧
        ∀ p ∈ extra1, ∃ c, p.1 = StringKey.contractStateKey c := by
      obtain ⟨rb, od⟩ := st
      obtain ⟨cid, comp⟩ := q
      unfold rollback_block_state_step at hstep
      simp only [Res.bind_ok, Res.pure_def, Res.bind_error, Res.throw_def] at hstep
      by_cases hod : (alget od cid).isSome = true
      · rw [if_pos hod] at hstep
        injection hstep with he
        exact ⟨[], by rw [← he]; exact (List.append_nil _).symm,
          fun p hp => absurd hp (List.not_mem_nil p)⟩
      rw [if_neg hod] at hstep
      rcases Res.bind_eq_ok hstep with ⟨contract, hct, hstep⟩
      rcases Res.bind_eq_ok hstep with ⟨state, hst, hstep⟩
      cases hrb : env.zkRollbackFn state with
      | some state2 =>
        rw [hrb] at hstep
        simp only [Res.bind_ok, Res.pure_def, Res.bind_error, Res.throw_def] at hstep
        by_cases hcm : env.zkCompress state2 contract.stateModel ≠ comp.prevState
        · rw [if_pos hcm] at hstep
          exact absurd hstep (by simp)
        rw [if_neg hcm] at hstep
        injection hstep with he
        refine ⟨[(.contractStateKey cid, some (.vzkState state2))], by rw [← he], ?_⟩
        intro p hp
        simp only [List.mem_cons, List.not_mem_nil, or_false] at hp
        subst hp
        exact ⟨cid, rfl⟩
      | none =>
        rw [hrb] at hstep
        simp only [Res.bind_ok, Res.pure_def, Res.bind_error, Res.throw_def] at hstep
        by_cases hhz : env.zkCompressedHeight comp.prevState > 0
        · rw [if_pos hhz] at hstep
          injection hstep with he
          exact ⟨[], by rw [← he]; exact (List.append_nil _).symm,
            fun p hp => absurd hp (List.not_mem_nil p)⟩
        · rw [if_neg hhz] at hstep
          injection hstep with he
          exact ⟨[], by rw [← he]; exact (List.append_nil _).symm,
            fun p hp => absurd hp (List.not_mem_nil p)⟩
    obtain ⟨extra1, he1, hs1⟩ := hstep1
    obtain ⟨extra2, he2, hs2⟩ := ih st1 fin h
    refine ⟨extra1 ++ extra2, ?_, ?_⟩
    · rw [he2, he1, List.append_assoc]
    · intro p hp
      rcases List.mem_append.mp hp with h1 | h1
      · exact hs1 p h1
      · exact hs2 p h1

/-- C2 rollback restoration: a `rollback_block` immediately undoing a
successful `apply_block` applies the stored inverse log, which restores
every account and contract-account balance — including the burned fees —
so the total ledger returns to exactly its pre-block value. -/
theorem apply_block_rollback_restores (env : Env) (S : Store) (b : Block)
    (cp : Bool) (S' S2 : Store) (hnd : NodupKeys S) (hca : CAInv S)
    (hnum : get_height ramKv S = .ok b.header.number)
    (h : apply_block env S b cp = .ok S')
    (hr : rollback_block env S' = .ok S2) :
    ledgerSum env S2 = ledgerSum env S := by
  obtain ⟨curr, pw, ovF, su, od, T', hcur, hshape, hndov, hpt, hndT, hcaT, hled,
    hS'⟩ := apply_block_ok_shape env S b cp S' hnd hca h
  rw [hnum] at hcur
  injection hcur with hbn
  subst hbn
  subst hS'
  have hgetH : ramGet (ramUpdate S
      (blockChangesFrom env S b b.header.number pw ovF su od))
      StringKey.height = some (.vnat (b.header.number + 1)) := by
    rw [ramGet_ramUpdate]
    unfold blockChangesFrom
    rw [lastTouch_append_none _ _ _ (by
      intro p hp
      simp only [List.mem_cons, List.not_mem_nil, or_false] at hp
      rcases hp with rfl | rfl | rfl | rfl | rfl <;>
        exact fun he => StringKey.noConfusion he)]
    rw [lastTouch_append_none _ _ _ (by
      intro p hp
      simp only [List.mem_cons, List.not_mem_nil, or_false] at hp
      subst hp
      exact fun he => StringKey.noConfusion he)]
    rw [lastTouch_append_none _ _ _ (by
      intro p hp
      simp only [List.mem_cons, List.not_mem_nil, or_false] at hp
      subst hp
      exact fun he => StringKey.noConfusion he)]
    rw [lastTouch_append_last]
    rfl
  have hgh : get_height ramKv (ramUpdate S
      (blockChangesFrom env S b b.header.number pw ovF su od)) =
      Res.ok (b.header.number + 1) := by
    unfold get_height
    have hk : ramKv.kget (ramUpdate S
        (blockChangesFrom env S b b.header.number pw ovF su od))
        StringKey.height = some (.vnat (b.header.number + 1)) := hgetH
    rw [hk]
  have hrbGet : ramGet (ramUpdate S
      (blockChangesFrom env S b b.header.number pw ovF su od))
      (StringKey.rollbackKey b.header.number) =
      some (.vops (rollback_of S (toOps ovF ++
        [(.height, some (.vnat (b.header.number + 1)))] ++
        [(.powerKey b.header.number,
          some (.vnat (env.headerPower b.header + pw)))]))) := by
    rw [ramGet_ramUpdate]
    unfold blockChangesFrom
    rw [lastTouch_append_none _ _ _ (by
      intro p hp
      simp only [List.mem_cons, List.not_mem_nil, or_false] at hp
      rcases hp with rfl | rfl | rfl | rfl | rfl <;>
        exact fun he => StringKey.noConfusion he)]
    rw [lastTouch_append_last]
    rfl
  have hodGet : ramGet (ramUpdate S
      (blockChangesFrom env S b b.header.number pw ovF su od))
      StringKey.outdated = some (.vstateMap od) := by
    rw [ramGet_ramUpdate]
    unfold blockChangesFrom
    rw [lastTouch_append]
    rfl
  have hodS' : get_outdated_states ramKv (ramUpdate S
      (blockChangesFrom env S b b.header.number pw ovF su od)) = Res.ok od := by
    unfold get_outdated_states
    have hk : ramKv.kget (ramUpdate S
        (blockChangesFrom env S b b.header.number pw ovF su od))
        StringKey.outdated = some (.vstateMap od) := hodGet
    rw [hk]
  have hupdGet : ramGet (ramUpdate S
      (blockChangesFrom env S b b.header.number pw ovF su od))
      (StringKey.contractUpdatesKey b.header.number) =
      some (.vupdatesMap su) := by
    rw [ramGet_ramUpdate]
    unfold blockChangesFrom
    rw [lastTouch_append]
    have hnd5 : NodupKeys
        ([(.headerKey b.header.number, some (.vheader b.header)),
          (.blockKey b.header.number, some (.vblock b)),
          (.merkleKey b.header.number, some (.vmerkle (env.merkleTreeOf b.body))),
          (.contractUpdatesKey b.header.number, some (.vupdatesMap su)),
          (.outdated, some (.vstateMap od))] : List WriteOp) := by
      simp [NodupKeys]
    rw [lastTouch_eq_alget_of_nodup _ hnd5]
    rw [alget_cons, if_neg (fun he => StringKey.noConfusion he)]
    rw [alget_cons, if_neg (fun he => StringKey.noConfusion he)]
    rw [alget_cons, if_neg (fun he => StringKey.noConfusion he)]
    rw [alget_cons, if_pos rfl]
    rfl
  have hchS' : get_changed_states ramKv (ramUpdate S
      (blockChangesFrom env S b b.header.number pw ovF su od))
      b.header.number = Res.ok su := by
    unfold get_changed_states
    have hk : ramKv.kget (ramUpdate S
        (blockChangesFrom env S b b.header.number pw ovF su od))
        (StringKey.contractUpdatesKey b.header.number) =
        some (.vupdatesMap su) := hupdGet
    rw [hk]
  unfold rollback_block at hr
  rw [hgh] at hr
  simp only [Res.bind_ok] at hr
  rw [if_neg (Nat.succ_ne_zero b.header.number)] at hr
  simp only [Nat.add_sub_cancel] at hr
  rw [hrbGet] at hr
  simp only [Res.bind_ok, Res.pure_def] at hr
  rw [hodS'] at hr
  simp only [Res.bind_ok] at hr
  rw [hchS'] at hr
  simp only [Res.bind_ok] at hr
  rcases Res.bind_eq_ok hr with ⟨fin, hfold, hr⟩
  obtain ⟨rb1, od1⟩ := fin
  simp only [Res.pure_def, Res.ok.injEq] at hr
  obtain ⟨extra, hex, hsx⟩ := rollback_loop_shape env _ su _ _ hfold
  have hex' : rb1 = rollback_of S (toOps ovF ++
      [(.height, some (.vnat (b.header.number + 1)))] ++
      [(.powerKey b.header.number,
        some (.vnat (env.headerPower b.header + pw)))]) ++ extra := hex
  subst hr
  apply ledgerSum_ext env _ S ?_ hnd
  case _ =>
    intro k hrel
    rw [ramGet_ramUpdate]
    rw [lastTouch_append_none _ _ _ (by
      intro p hp
      simp only [List.mem_cons, List.not_mem_nil, or_false] at hp
      rcases hp with rfl | rfl | rfl | rfl | rfl | rfl <;>
        exact relevant_ne _ k rfl hrel)]
    rw [hex']
    rw [lastTouch_append_none _ _ _ (by
      intro p hp he
      obtain ⟨c, hc⟩ := hsx p hp
      rw [hc] at he
      rw [← he] at hrel
      exact absurd hrel (not_relevant _ rfl))]
    rw [lastTouch_rollback_of]
    cases hpre : lastTouch (toOps ovF ++
        [(.height, some (.vnat (b.header.number + 1)))] ++
        [(.powerKey b.header.number,
          some (.vnat (env.headerPower b.header + pw)))]) k with
    | some w => rfl
    | none =>
      simp only [Option.map_none', Option.getD_none]
      rw [ramGet_ramUpdate]
      unfold blockChangesFrom
      rw [lastTouch_append_none _ _ _ (by
        intro p hp
        simp only [List.mem_cons, List.not_mem_nil, or_false] at hp
        rcases hp with rfl | rfl | rfl | rfl | rfl <;>
          exact relevant_ne _ k rfl hrel)]
      rw [lastTouch_append_none _ _ _ (by
        intro p hp
        simp only [List.mem_cons, List.not_mem_nil, or_false] at hp
        subst hp
        exact relevant_ne _ k rfl hrel)]
      rw [hpre]
      rfl
  case _ =>
    apply nodupKeys_ramUpdate
    apply nodupKeys_ramUpdate
    exact hnd

/-- C8: this revision's `rollback_block` has no `height > 0` guard and
`BlockchainError` has no `NoBlocksToRollback` variant: called on a chain
at height 0, it computes `height - 1` on an unsigned integer, which
underflows — modelled as a panic — instead of returning a
`NoBlocksToRollback` error and leaving the store unchanged. -/
theorem rollback_block_underflows_at_height_zero (env : Env) (S : Store)
    (h : get_height ramKv S = Res.ok 0) :
    rollback_block env S = Res.panic := by
  unfold rollback_block
  rw [h]
  rfl

theorem rollback_block_underflows_at_height_zero_witness :
    get_height ramKv ([] : Store) = Res.ok 0 ∧
      rollback_block envA ([] : Store) = Res.panic :=
  ⟨rfl, rollback_block_underflows_at_height_zero envA ([] : Store) rfl⟩

/-- C1: `apply_block` either fails without touching the store, or commits
every effect of the block through the single atomic batch computed on
the RAM overlay: its result is exactly `update(S, changes)` for the one
batch `apply_block_changes` computes, errors and panics agreeing — all
intermediate writes are staged in the fork overlay and reach the
underlying store only through that one final `update`. -/
theorem apply_block_single_batch (env : Env) (S : Store) (b : Block)
    (checkPow : Bool) :
    apply_block env S b checkPow =
      match apply_block_changes env S b checkPow with
      | .ok ch => .ok (ramUpdate S ch)
      | .error e => .error e
      | .panic => .panic := by
  unfold apply_block apply_block_changes
  cases h1 : get_height ramKv S with
  | panic => rfl
  | error e => rfl
  | ok curr_height =>
  simp only [Res.bind_ok]
  cases h2 : next_reward env ramKv S with
  | panic => rfl
  | error e => rfl
  | ok nr =>
  simp only [Res.bind_ok]
  by_cases h3 : curr_height > 0
  · simp only [if_pos h3]
    by_cases h4 : env.merkleRootOf (env.merkleTreeOf b.body) ≠ b.header.blockRoot
    · simp only [if_pos h4]
      rfl
    · simp only [if_neg h4]
      cases h5 : will_extend env ramKv S curr_height [b.header] checkPow with
      | panic => rfl
      | error e => rfl
      | ok wr =>
      simp only [Res.bind_ok, Res.pure_def]
      cases h6 : apply_block_reward_gate env S (b.header.number == 0) b.body nr with
      | panic => rfl
      | error e => rfl
      | ok p =>
      obtain ⟨ov0, txs⟩ := p
      simp only [Res.bind_ok]
      cases h7 : get_outdated_states ramKv S with
      | panic => rfl
      | error e => rfl
      | ok od0 =>
      simp only [Res.bind_ok]
      cases h8 : txs.foldlM (apply_block_tx_step env S (b.header.number == 0))
          ((ov0, 0, 0, [], od0) : ApplyLoopState) with
      | panic => rfl
      | error e => rfl
      | ok fin =>
      obtain ⟨ovF, bs, ssd, su, od⟩ := fin
      simp only [Res.bind_ok]
      by_cases h9 : usizeOfIsize ((bs : Int) + ssd) > env.maxDeltaSize
      · simp only [if_pos h9]
        rfl
      · simp only [if_neg h9]
        cases h10 : get_power ramKv S with
        | panic => rfl
        | error e => rfl
        | ok pw => rfl
  · simp only [if_neg h3]
    cases h6 : apply_block_reward_gate env S (b.header.number == 0) b.body nr with
    | panic => rfl
    | error e => rfl
    | ok p =>
    obtain ⟨ov0, txs⟩ := p
    simp only [Res.bind_ok]
    cases h7 : get_outdated_states ramKv S with
    | panic => rfl
    | error e => rfl
    | ok od0 =>
    simp only [Res.bind_ok]
    cases h8 : txs.foldlM (apply_block_tx_step env S (b.header.number == 0))
        ((ov0, 0, 0, [], od0) : ApplyLoopState) with
    | panic => rfl
    | error e => rfl
    | ok fin =>
    obtain ⟨ovF, bs, ssd, su, od⟩ := fin
    simp only [Res.bind_ok]
    by_cases h9 : usizeOfIsize ((bs : Int) + ssd) > env.maxDeltaSize
    · simp only [if_pos h9]
      rfl
    · simp only [if_neg h9]
      cases h10 : get_power ramKv S with
      | panic => rfl
      | error e => rfl
      | ok pw => rfl

theorem reward_gate_empty (env : Env) (S : Store) (R : Nat) :
    apply_block_reward_gate env S false [] R = .error .minerRewardNotFound := rfl

theorem reward_gate_bad_shape (env : Env) (S : Store) (R : Nat)
    (tx0 : Transaction) (rest : List Transaction)
    (h : tx0.src ≠ .treasury ∨ tx0.fee ≠ 0 ∨ tx0.sig ≠ .unsigned) :
    apply_block_reward_gate env S false (tx0 :: rest) R =
      .error .invalidMinerReward := by
  unfold apply_block_reward_gate
  simp only [Bool.false_eq_true, if_false, Res.throw_def, Res.pure_def,
    Res.bind_ok, Res.bind_error]
  rw [if_pos h]

theorem reward_gate_bad_amount (env : Env) (S : Store) (R : Nat)
    (tx0 : Transaction) (rest : List Transaction) (dst : Address) (amount : Nat)
    (hok : ¬(tx0.src ≠ .treasury ∨ tx0.fee ≠ 0 ∨ tx0.sig ≠ .unsigned))
    (hdata : tx0.data = .regularSend dst amount) (hne : amount ≠ R) :
    apply_block_reward_gate env S false (tx0 :: rest) R =
      .error .invalidMinerReward := by
  unfold apply_block_reward_gate
  simp only [Bool.false_eq_true, if_false, Res.throw_def, Res.pure_def,
    Res.bind_ok, Res.bind_error]
  rw [if_neg hok, hdata]
  simp only [Res.pure_def, Res.bind_ok, Res.bind_error]
  rw [if_pos hne]

theorem reward_gate_bad_variant (env : Env) (S : Store) (R : Nat)
    (tx0 : Transaction) (rest : List Transaction)
    (hok : ¬(tx0.src ≠ .treasury ∨ tx0.fee ≠ 0 ∨ tx0.sig ≠ .unsigned))
    (hdata : ∀ dst amount, tx0.data ≠ .regularSend dst amount) :
    apply_block_reward_gate env S false (tx0 :: rest) R =
      .error .invalidMinerReward := by
  unfold apply_block_reward_gate
  simp only [Bool.false_eq_true, if_false, Res.throw_def, Res.pure_def,
    Res.bind_ok, Res.bind_error]
  rw [if_neg hok]

theorem reward_gate_ok (env : Env) (S : Store) (R : Nat)
    (body : List Transaction) (p : Overlay × List Transaction)
    (h : apply_block_reward_gate env S false body R = .ok p) :
    ∃ tx0 rest dst, body = tx0 :: rest ∧ tx0.src = .treasury ∧ tx0.fee = 0 ∧
      tx0.sig = .unsigned ∧ tx0.data = .regularSend dst R := by
  unfold apply_block_reward_gate at h
  simp only [Bool.false_eq_true, if_false, Res.throw_def, Res.pure_def,
    Res.bind_ok, Res.bind_error] at h
  split at h
  · simp at h
  · split at h
    · simp at h
    · case _ hok =>
      push_neg at hok
      obtain ⟨hsrc, hfee, hsig⟩ := hok
      split at h
      · case _ dst amount hdata =>
        split at h
        · simp at h
        · case _ hamount =>
          refine ⟨_, _, dst, rfl, hsrc, hfee, hsig, ?_⟩
          rw [hdata, Decidable.not_not.mp hamount]
      · simp at h

/-- C6: for a non-genesis block, `apply_block` requires the first body
transaction to be a Treasury-sourced, zero-fee, unsigned `RegularSend`
of exactly the current Treasury balance divided by `REWARD_RATIO`
(integer division): an empty body yields `MinerRewardNotFound`, a wrong
source, fee or signature yields `InvalidMinerReward`, a `RegularSend`
of any other amount yields `InvalidMinerReward`, any other data variant
yields `InvalidMinerReward`, and a successful application implies the
first transaction had exactly this shape. -/
theorem apply_block_requires_miner_reward (env : Env) (S : Store) (b : Block)
    (checkPow : Bool) (ht : Nat) (accT : Account)
    (hht : get_height ramKv S = Res.ok ht)
    (hta : get_account env ramKv S .treasury = Res.ok accT)
    (hng : b.header.number ≠ 0)
    (hmerkle : ht > 0 →
      env.merkleRootOf (env.merkleTreeOf b.body) = b.header.blockRoot)
    (hwe : ht > 0 →
      ∃ w, will_extend env ramKv S ht [b.header] checkPow = Res.ok w) :
    (b.body = [] →
      apply_block env S b checkPow = .error .minerRewardNotFound) ∧
    (∀ tx0 rest, b.body = tx0 :: rest →
      ((tx0.src ≠ .treasury ∨ tx0.fee ≠ 0 ∨ tx0.sig ≠ .unsigned) →
        apply_block env S b checkPow = .error .invalidMinerReward) ∧
      (∀ dst amount, tx0.data = .regularSend dst amount →
        amount ≠ accT.balance / env.rewardRatio →
        apply_block env S b checkPow = .error .invalidMinerReward) ∧
      ((∀ dst amount, tx0.data ≠ .regularSend dst amount) →
        apply_block env S b checkPow = .error .invalidMinerReward)) ∧
    (∀ S', apply_block env S b checkPow = .ok S' →
      ∃ tx0 rest dst, b.body = tx0 :: rest ∧ tx0.src = .treasury ∧
        tx0.fee = 0 ∧ tx0.sig = .unsigned ∧
        tx0.data = .regularSend dst (accT.balance / env.rewardRatio)) := by
  have hnr : next_reward env ramKv S =
      Res.ok (accT.balance / env.rewardRatio) := by
    unfold next_reward
    rw [hta]
    rfl
  have hgen : (b.header.number == 0) = false := by simp [hng]
  have hprop : ∀ e, apply_block_reward_gate env S false b.body
      (accT.balance / env.rewardRatio) = .error e →
      apply_block env S b checkPow = .error e := by
    intro e hge
    unfold apply_block
    rw [hht]
    simp only [Res.bind_ok]
    rw [hnr]
    simp only [Res.bind_ok]
    rw [hgen]
    by_cases h3 : ht > 0
    · rw [if_pos h3, if_neg (not_not_intro (hmerkle h3))]
      obtain ⟨w, hw⟩ := hwe h3
      rw [hw]
      simp only [Res.bind_ok, Res.pure_def]
      rw [hge]
      simp [Res.pure_def, Res.bind_ok, Res.bind_error]
    · rw [if_neg h3, hge]
      simp [Res.pure_def, Res.bind_ok, Res.bind_error]
  have hsucc : ∀ S', apply_block env S b checkPow = .ok S' →
      ∃ p, apply_block_reward_gate env S false b.body
        (accT.balance / env.rewardRatio) = .ok p := by
    intro S' hs
    unfold apply_block at hs
    rw [hht] at hs
    simp only [Res.bind_ok] at hs
    rw [hnr] at hs
    simp only [Res.bind_ok] at hs
    rw [hgen] at hs
    by_cases h3 : ht > 0
    · rw [if_pos h3] at hs
      simp only [Res.throw_def, Res.pure_def, Res.bind_ok, Res.bind_error] at hs
      split at hs
      · simp at hs
      · rcases Res.bind_eq_ok hs with ⟨w, _, hs⟩
        rcases Res.bind_eq_ok hs with ⟨p, hgatep, _⟩
        exact ⟨p, hgatep⟩
    · rw [if_neg h3] at hs
      simp only [Res.pure_def, Res.bind_ok] at hs
      rcases Res.bind_eq_ok hs with ⟨p, hgatep, _⟩
      exact ⟨p, hgatep⟩
  refine ⟨?_, ?_, ?_⟩
  · intro hbody
    exact hprop _ (by rw [hbody]; exact reward_gate_empty env S _)
  · intro tx0 rest hbody
    refine ⟨?_, ?_, ?_⟩
    · intro hshape
      exact hprop _ (by rw [hbody]; exact reward_gate_bad_shape _ _ _ _ _ hshape)
    · intro dst amount hdata hne
      by_cases hshape : tx0.src ≠ .treasury ∨ tx0.fee ≠ 0 ∨ tx0.sig ≠ .unsigned
      · exact hprop _
          (by rw [hbody]; exact reward_gate_bad_shape _ _ _ _ _ hshape)
      · exact hprop _ (by
          rw [hbody]
          exact reward_gate_bad_amount _ _ _ _ _ dst amount hshape hdata hne)
    · intro hdata
      by_cases hshape : tx0.src ≠ .treasury ∨ tx0.fee ≠ 0 ∨ tx0.sig ≠ .unsigned
      · exact hprop _
          (by rw [hbody]; exact reward_gate_bad_shape _ _ _ _ _ hshape)
      · exact hprop _
          (by rw [hbody]; exact reward_gate_bad_variant _ _ _ _ _ hshape hdata)
  · intro S' hs
    obtain ⟨p, hgate⟩ := hsucc S' hs
    exact reward_gate_ok env S _ b.body p hgate

/-- A non-genesis block with an empty body, extending the chain of
`storeC`. -/
def blkE : Block := { header := ⟨1000, 1, 5, ⟨50, 7, 0⟩⟩, body := [] }

theorem apply_block_requires_miner_reward_witness :
    (get_height ramKv storeC = Res.ok 1 ∧
      get_account envA ramKv storeC .treasury = Res.ok ⟨10000, 0⟩ ∧
      blkE.header.number ≠ 0) ∧
    apply_block envA storeC blkE false = Res.error .minerRewardNotFound :=
  ⟨⟨rfl, rfl, by decide⟩,
    (apply_block_requires_miner_reward envA storeC blkE false 1 ⟨10000, 0⟩
      rfl rfl (by decide) (fun _ => rfl) (fun _ => ⟨true, rfl⟩)).1 rfl⟩

/-- C3: for every store state `S` and list of write ops `ops`, computing
`inv = rollback_of(ops)` against `S`, applying `ops` via `update` and then
applying `inv` via `update` restores every key of the store to its value
in `S`: the inverse batch emitted by `rollback_of` (`Put(k, old)` for
present keys, `Remove(k)` for absent ones), applied verbatim, undoes the
update.  Store equality is map equality, i.e. pointwise agreement of
`get`. -/
theorem rollback_of_inverts_update (S : Store) (ops : List WriteOp)
    (k : StringKey) :
    ramGet (ramUpdate (ramUpdate S ops) (rollback_of S ops)) k = ramGet S k := by
  rw [ramGet_ramUpdate, ramGet_ramUpdate, lastTouch_rollback_of]
  rcases h : lastTouch ops k with _ | r <;> simp

/-- States reachable from the empty store by successful `apply_block`
calls alone, indexed by the total fees carried by the applied bodies.
Modelled from the spec: "any sequence of `apply_block` ... operations
starting from the genesis state". -/
inductive ApplyReach (env : Env) : Store → Nat → Prop where
  | start : ApplyReach env [] 0
  | step (S : Store) (f : Nat) (b : Block) (cp : Bool) (S' : Store) :
      ApplyReach env S f → apply_block env S b cp = .ok S' →
      ApplyReach env S' (f + (b.body.map (fun tx => tx.fee)).sum)

theorem apply_reach_ledger (env : Env) (S : Store) (f : Nat)
    (h : ApplyReach env S f) :
    ledgerSum env S + f = env.totalSupply ∧ NodupKeys S ∧ CAInv S := by
  induction h with
  | start =>
    refine ⟨?_, List.nodup_nil, fun cid ca hg => Option.noConfusion hg⟩
    have h0 : ledgerSum env ([] : Store) = env.totalSupply := by
      unfold ledgerSum
      rw [ledger_default_none env
        (alget ([] : Store) (.accountKey .treasury)) rfl]
      simp
    omega
  | step S0 f0 b cp S' _ happ ih =>
    obtain ⟨hsum, hnd, hca⟩ := ih
    obtain ⟨hfee, hnd', hca'⟩ := apply_block_fee_law env S0 b cp S' hnd hca happ
    exact ⟨by omega, hnd', hca'⟩

/-- The genesis block of the C2 scenario: a single Treasury
`RegularSend` of 9000 to account 1, fee 0, unsigned. -/
def genTxC : Transaction :=
  { src := .treasury, nonce := 1, data := .regularSend (.publicKey 1) 9000,
    fee := 0, sig := .unsigned }

def genBlkC : Block := { header := ⟨0, 0, 5, ⟨10, 7, 0⟩⟩, body := [genTxC] }

/-- Block 1 of the C2 scenario: the mandatory miner reward (the Treasury
balance after genesis is 1000, so `next_reward = 100`) followed by a
signed send of 100 from account 1 to account 3 paying fee 50. -/
def rewardTxC : Transaction :=
  { src := .treasury, nonce := 2, data := .regularSend (.publicKey 2) 100,
    fee := 0, sig := .unsigned }

def aliceTxC : Transaction :=
  { src := .publicKey 1, nonce := 1, data := .regularSend (.publicKey 3) 100,
    fee := 50, sig := .signed 0 }

def blkC1 : Block :=
  { header := ⟨1000, 1, 5, ⟨50, 7, 0⟩⟩, body := [rewardTxC, aliceTxC] }

/-- The store after applying the C2 genesis block to the empty store. -/
def S1C : Store :=
  match apply_block envA ([] : Store) genBlkC true with
  | .ok s => s
  | _ => []

/-- The store after applying C2 block 1 on top of `S1C`. -/
def S2C : Store :=
  match apply_block envA S1C blkC1 true with
  | .ok s => s
  | _ => []

/-- The store after rolling the C2 genesis block back off `S1C`. -/
def S1RC : Store :=
  match rollback_block envA S1C with
  | .ok s => s
  | _ => []

/-- C2 counterexample: conservation as claimed is false — transaction
fees are deducted from the payer but credited to no account (the miner
reward is financed by the Treasury, not by the fees), so fees are
burned.  Starting from the empty store, applying the genesis block and
then a valid block whose body carries 50 in fees reaches a state whose
total of account balances (Treasury included) plus contract balances is
`TOTAL_SUPPLY - 50`, not `TOTAL_SUPPLY`. -/
theorem conservation_counterexample :
    ApplyReach envA S2C 50 ∧
      ledgerSum envA ([] : Store) = envA.totalSupply ∧
      ledgerSum envA S2C + 50 = envA.totalSupply ∧
      ¬(ledgerSum envA S2C = envA.totalSupply) := by
  refine ⟨ApplyReach.step S1C 0 blkC1 true S2C
    (ApplyReach.step [] 0 genBlkC true S1C ApplyReach.start rfl) rfl,
    rfl, ?_, ?_⟩
  · decide
  · decide

/-- C2: what actually holds is conservation up to burned fees.  (1) Along
any sequence of successful `apply_block` calls from the empty store, the
total of all account balances (including the Treasury, whose absent
account reads as `TOTAL_SUPPLY`) plus all contract-account balances
equals `TOTAL_SUPPLY` minus the accumulated fees of the applied bodies —
equality with `TOTAL_SUPPLY` holds only while every fee is zero.  (2) A
single successful `apply_block` on a well-formed store (unique keys,
zero-balance contract accounts — both hold on every reachable store)
decreases that total by exactly the sum of its body's fees, and a
`rollback_block` immediately undoing it restores the total exactly,
burned fees included. -/
theorem conservation_burns_fees (env : Env) :
    (∀ (S : Store) (f : Nat), ApplyReach env S f →
      ledgerSum env S + f = env.totalSupply) ∧
    (∀ (S : Store) (b : Block) (cp : Bool) (S' : Store),
      NodupKeys S → CAInv S → apply_block env S b cp = .ok S' →
      ledgerSum env S' + (b.body.map (fun tx => tx.fee)).sum = ledgerSum env S ∧
      (∀ S2, get_height ramKv S = .ok b.header.number →
        rollback_block env S' = .ok S2 → ledgerSum env S2 = ledgerSum env S)) := by
  constructor
  · intro S f h
    exact (apply_reach_ledger env S f h).1
  · intro S b cp S' hnd hca h
    refine ⟨(apply_block_fee_law env S b cp S' hnd hca h).1, ?_⟩
    intro S2 hnum hr
    exact apply_block_rollback_restores env S b cp S' S2 hnd hca hnum h hr

theorem conservation_burns_fees_witness :
    NodupKeys ([] : Store) ∧ CAInv ([] : Store) ∧
    apply_block envA ([] : Store) genBlkC true = Res.ok S1C ∧
    ledgerSum envA S1C + (0 + ((genBlkC.body.map (fun tx => tx.fee)).sum)) =
      envA.totalSupply ∧
    get_height ramKv ([] : Store) = Res.ok genBlkC.header.number ∧
    rollback_block envA S1C = Res.ok S1RC ∧
    ledgerSum envA S1RC = ledgerSum envA ([] : Store) := by
  have hnd : NodupKeys ([] : Store) := List.nodup_nil
  have hca : CAInv ([] : Store) := fun cid ca hg => Option.noConfusion hg
  refine ⟨hnd, hca, rfl, ?_, rfl, rfl, ?_⟩
  · exact (conservation_burns_fees envA).1 _ _
      (ApplyReach.step [] 0 genBlkC true S1C ApplyReach.start rfl)
  · exact ((conservation_burns_fees envA).2 [] genBlkC true S1C hnd hca rfl).2
      S1RC rfl rfl

end Bazuka
